import Mathlib

/-! Box blur of a pixel grid: the sequential pass and the strip-partitioned parallel pass.

A shallow embedding of `image.hpp`.

Modelling conventions.

* `uint8_t` channels are `Fin 256`; `static_cast<uint8_t>` is `toU8`, reduction modulo `2 ^ 8`.
* `int` and `size_t` values are `Int` and `Nat`.  Row and column counts are taken
  to fit in an `int`, so the conversions between the two keep the value; the only arithmetic
  on them is `i * stripHeight`, bounded by the height, and `x + dx`, `y + dy`.
* `std::vector` is `List`.  Indexing past the end of a vector and integer division by zero
  have no defined result in the source; every function that can reach one returns `Option`
  and yields `none` there.
* The per-pixel function called by the two passes is a parameter (`...With kernel`);
  `SequentialBlur` and `ParallelBlur` are the instances at `computeAverageColor`.
* The workers started by `ParallelBlur` are run one after the other in the order in which
  they are started, each one to completion; the call returns after the last one (the join).
  `runWorkers` runs them in any given order.
* The two trials of `demonstrateAtomicOperations` are transition systems in which one worker
  acts at a time; taking the mutex and the `counter++` of a `std::atomic<int>` are single
  actions, the `counter++` of the plain `int` is a read followed by a write.
-/

namespace Laba5

/-! ## Data model -/

/-- `static_cast<uint8_t>` of a non-negative `int`. -/
def toU8 (n : Nat) : Fin 256 := ⟨n % 256, Nat.mod_lt n (by decide)⟩

/-- `struct Color`: three 8-bit channels. -/
structure Color where
  r : Fin 256
  g : Fin 256
  b : Fin 256
deriving DecidableEq, Repr

/-- `using Image = std::vector<std::vector<Color>>`: a list of rows. -/
abbrev Image := List (List Color)

/-- `img[0].size()`, with `0` for a grid without rows. -/
def width (img : Image) : Nat :=
  match img[0]? with
  | none => 0
  | some row0 => row0.length

/-- Every row has the length of row 0. -/
def Rect (img : Image) : Prop := ∀ row ∈ img, row.length = width img

instance (img : Image) : Decidable (Rect img) := by
  unfold Rect; infer_instance

/-- The cell in column `nx` of row `ny`, when there is one. -/
def cellAt (img : Image) (nx ny : Int) : Option Color :=
  if 0 ≤ nx ∧ 0 ≤ ny then
    match img[ny.toNat]? with
    | none => none
    | some row => row[nx.toNat]?
  else none

/-! ## `computeAverageColor` -/

/-- The locals `sumR`, `sumG`, `sumB`, `count` of `computeAverageColor`. -/
structure Acc where
  sumR : Nat
  sumG : Nat
  sumB : Nat
  count : Nat
deriving DecidableEq, Repr

/-- The body of the inner loop of `computeAverageColor` at offset `(dx, dy)`. -/
def visit (img : Image) (x y : Int) (dy dx : Int) (acc : Acc) : Option Acc :=
  let nx := x + dx
  let ny := y + dy
  if nx ≥ 0 ∧ ny ≥ 0 then
    match img[0]? with
    | none => none
    | some row0 =>
      if nx < (row0.length : Int) ∧ ny < (img.length : Int) then
        match img[ny.toNat]? with
        | none => none
        | some row =>
          match row[nx.toNat]? with
          | none => none
          | some c =>
            some ⟨acc.sumR + c.r.val, acc.sumG + c.g.val, acc.sumB + c.b.val, acc.count + 1⟩
      else some acc
  else some acc

/-- The two nested loops of `computeAverageColor`: `dy` and `dx` run over `-1, 0, 1`. -/
def accumulate (img : Image) (x y : Int) : Option Acc :=
  [-1, 0, 1].foldlM
    (fun acc dy => [-1, 0, 1].foldlM (fun acc dx => visit img x y dy dx acc) acc)
    ⟨0, 0, 0, 0⟩

/-- `Color computeAverageColor(const Image& img, int x, int y)`. -/
def computeAverageColor (img : Image) (x y : Int) : Option Color :=
  match accumulate img x y with
  | none => none
  | some acc =>
    if acc.count = 0 then none
    else some ⟨toU8 (acc.sumR / acc.count), toU8 (acc.sumG / acc.count),
      toU8 (acc.sumB / acc.count)⟩

/-- The value of `count` when `computeAverageColor` reaches its `return`. -/
def neighbourCount (img : Image) (x y : Int) : Option Nat :=
  (accumulate img x y).map Acc.count

/-! ## The blur passes -/

/-- The per-pixel function applied by a pass. -/
abbrev Kernel := Image → Int → Int → Option Color

/-- The assignment `result[y][x] = c`. -/
def writeCell (result : Image) (y x : Nat) (c : Color) : Option Image :=
  match result[y]? with
  | none => none
  | some row => if x < row.length then some (result.set y (row.set x c)) else none

/-- The loop `for (size_t x = ...; x < input[y].size(); ++x) result[y][x] = kernel(input, x, y)`,
with `n` iterations left and the loop variable at `x`. -/
def rowLoop (kernel : Kernel) (input : Image) (y : Nat) : Nat → Nat → Image → Option Image
  | 0, _, result => some result
  | n + 1, x, result =>
    match kernel input (x : Int) (y : Int) with
    | none => none
    | some c =>
      match writeCell result y x c with
      | none => none
      | some result1 => rowLoop kernel input y n (x + 1) result1

/-- The loop `for (size_t y = ...; y < input.size(); ++y)` of `SequentialBlur`,
with `n` iterations left and the loop variable at `y`. -/
def seqLoop (kernel : Kernel) (input : Image) : Nat → Nat → Image → Option Image
  | 0, _, result => some result
  | n + 1, y, result =>
    match input[y]? with
    | none => none
    | some row =>
      match rowLoop kernel input y row.length 0 result with
      | none => none
      | some result1 => seqLoop kernel input n (y + 1) result1

/-- `SequentialBlur` over an arbitrary per-pixel function. -/
def SequentialBlurWith (kernel : Kernel) (input : Image) : Option Image :=
  seqLoop kernel input input.length 0 input

/-- `Image SequentialBlur(const Image& input)`. -/
def SequentialBlur (input : Image) : Option Image :=
  SequentialBlurWith computeAverageColor input

/-- The loop `for (int y = ...; y < endY; ++y)` of `blurTask`, with `n` iterations left and
the loop variable at `y`. -/
def blurTaskLoop (kernel : Kernel) (input : Image) : Nat → Int → Image → Option Image
  | 0, _, result => some result
  | n + 1, y, result =>
    if y < 0 then none
    else
      match input[y.toNat]? with
      | none => none
      | some row =>
        match rowLoop kernel input y.toNat row.length 0 result with
        | none => none
        | some result1 => blurTaskLoop kernel input n (y + 1) result1

/-- The lambda `blurTask(startY, endY)` of `ParallelBlur`, acting on the captured `result`. -/
def blurTaskWith (kernel : Kernel) (input result : Image) (startY endY : Int) : Option Image :=
  blurTaskLoop kernel input (endY - startY).toNat startY result

/-- `blurTask` at `computeAverageColor`. -/
def blurTask (input result : Image) (startY endY : Int) : Option Image :=
  blurTaskWith computeAverageColor input result startY endY

/-- The `startY` of worker `i`. -/
def stripStart (stripHeight i : Int) : Int := i * stripHeight

/-- The `endY` of worker `i`. -/
def stripEnd (imgHeight numThreads stripHeight i : Int) : Int :=
  if i = numThreads - 1 then imgHeight else (i + 1) * stripHeight

/-- The loop `for (int i = ...; i < numThreads; ++i)` of `ParallelBlur`, with `n` iterations
left and the loop variable at `i`; each started worker is run to completion. -/
def spawnLoop (kernel : Kernel) (input : Image) (imgHeight numThreads stripHeight : Int) :
    Nat → Int → Image → Option Image
  | 0, _, result => some result
  | n + 1, i, result =>
    match blurTaskWith kernel input result (stripStart stripHeight i)
        (stripEnd imgHeight numThreads stripHeight i) with
    | none => none
    | some result1 => spawnLoop kernel input imgHeight numThreads stripHeight n (i + 1) result1

/-- `ParallelBlur` over an arbitrary per-pixel function. -/
def ParallelBlurWith (kernel : Kernel) (input : Image) (numThreads : Int) : Option Image :=
  let imgHeight : Int := input.length
  if numThreads = 0 then none
  else
    let stripHeight := imgHeight.tdiv numThreads
    spawnLoop kernel input imgHeight numThreads stripHeight numThreads.toNat 0 input

/-- `Image ParallelBlur(const Image& input, int numThreads)`. -/
def ParallelBlur (input : Image) (numThreads : Int) : Option Image :=
  ParallelBlurWith computeAverageColor input numThreads

/-- The row range `[startY, endY)` that `ParallelBlur` hands to worker `i`. -/
def strip (imgHeight numThreads i : Int) : Int × Int :=
  (stripStart (imgHeight.tdiv numThreads) i,
    stripEnd imgHeight numThreads (imgHeight.tdiv numThreads) i)

/-! ## Reference notions used to state the properties -/

/-- The nine positions `(nx, ny)` of the 3×3 neighbourhood centred at `(x, y)`. -/
def window (x y : Int) : List (Int × Int) :=
  [(x - 1, y - 1), (x, y - 1), (x + 1, y - 1),
   (x - 1, y), (x, y), (x + 1, y),
   (x - 1, y + 1), (x, y + 1), (x + 1, y + 1)]

/-- The in-bounds cells of the 3×3 neighbourhood centred at `(x, y)`. -/
def neighbourhood (img : Image) (x y : Int) : List Color :=
  (window x y).filterMap (fun p => cellAt img p.1 p.2)

/-- The truncated mean of one channel over a list of cells: the sum of the channel divided
by the number of cells. -/
def channelMean (channel : Color → Fin 256) (cells : List Color) : Nat :=
  (cells.map (fun c => (channel c).val)).sum / cells.length

/-- Adding a cell, when there is one, to the running sums and to the count. -/
def Acc.add (acc : Acc) : Option Color → Acc
  | none => acc
  | some c => ⟨acc.sumR + c.r.val, acc.sumG + c.g.val, acc.sumB + c.b.val, acc.count + 1⟩

/-- Position `p = (nx, ny)` lies inside the grid: `0 ≤ nx < width` and `0 ≤ ny < height`. -/
def inBounds (img : Image) (p : Int × Int) : Prop :=
  (0 ≤ p.1 ∧ p.1 < width img) ∧ (0 ≤ p.2 ∧ p.2 < img.length)

instance (img : Image) (p : Int × Int) : Decidable (inBounds img p) := by
  unfold inBounds; infer_instance

/-- Column `x` is the first or the last column. -/
def onSideBorder (img : Image) (x : Int) : Prop := x = 0 ∨ x = (width img : Int) - 1

/-- Row `y` is the first or the last row. -/
def onTopBottomBorder (img : Image) (y : Int) : Prop := y = 0 ∨ y = (img.length : Int) - 1

/-- A corner cell: in the first or last column and in the first or last row. -/
def isCorner (img : Image) (x y : Int) : Prop := onSideBorder img x ∧ onTopBottomBorder img y

/-- A non-corner edge cell: on the border of the grid in exactly one direction. -/
def isEdge (img : Image) (x y : Int) : Prop :=
  (onSideBorder img x ∧ ¬ onTopBottomBorder img y) ∨
    (¬ onSideBorder img x ∧ onTopBottomBorder img y)

/-- An interior cell: not in the first or last column nor in the first or last row. -/
def isInterior (img : Image) (x y : Int) : Prop :=
  ¬ onSideBorder img x ∧ ¬ onTopBottomBorder img y

instance (img : Image) (x : Int) : Decidable (onSideBorder img x) := by
  unfold onSideBorder; infer_instance

instance (img : Image) (y : Int) : Decidable (onTopBottomBorder img y) := by
  unfold onTopBottomBorder; infer_instance

instance (img : Image) (x y : Int) : Decidable (isCorner img x y) := by
  unfold isCorner; infer_instance

instance (img : Image) (x y : Int) : Decidable (isEdge img x y) := by
  unfold isEdge; infer_instance

instance (img : Image) (x y : Int) : Decidable (isInterior img x y) := by
  unfold isInterior; infer_instance

/-! ## Concrete grids -/

/-- The colour `(0, 0, 0)`. -/
def black : Color := ⟨0, 0, 0⟩

/-- The colour `(255, 0, 0)`. -/
def red : Color := ⟨255, 0, 0⟩

/-- The colour `(100, 100, 100)`. -/
def grey : Color := ⟨100, 100, 100⟩

/-- The 3×3 grid that is black except for the cell in column `cx` of row `cy`, which is red. -/
def spotGrid (cx cy : Nat) : Image :=
  (List.range 3).map (fun y => (List.range 3).map (fun x => if x = cx ∧ y = cy then red else black))

/-- The grid of `h` rows and `w` columns in which every cell is `c`. -/
def uniformGrid (w h : Nat) (c : Color) : Image := List.replicate h (List.replicate w c)

/-- The value `v` lies between the least and the greatest element of `vals`. -/
def BetweenMinMax (vals : List Nat) (v : Nat) : Prop :=
  ∃ lo hi, vals.min? = some lo ∧ vals.max? = some hi ∧ lo ≤ v ∧ v ≤ hi

/-! ## Running the workers in another order -/

/-- The workers of `ParallelBlur` with the indices listed in `order`, run one after the other
in that order, each on its own row range, starting from the output grid `result`. -/
def runWorkersWith (kernel : Kernel) (input : Image) (numThreads : Int) (order : List Nat)
    (result : Image) : Option Image :=
  order.foldlM
    (fun (r : Image) (i : Nat) =>
      blurTaskWith kernel input r (strip input.length numThreads (i : Int)).1
        (strip input.length numThreads (i : Int)).2)
    result

/-- The workers of `ParallelBlur` at `computeAverageColor`, run in the order `order` on a copy
of the input. -/
def runWorkers (input : Image) (numThreads : Int) (order : List Nat) : Option Image :=
  runWorkersWith computeAverageColor input numThreads order input

/-- The per-pixel function returns a colour at every cell of the grid. -/
def KernelDefined (kernel : Kernel) (input : Image) : Prop :=
  ∀ (y x : Nat) (row : List Color), input[y]? = some row → x < row.length →
    (kernel input (x : Int) (y : Int)).isSome

/-! ## `demonstrateAtomicOperations`: the two counter trials

The constants `numThreads` and `numIterations` of the source (4 and 1 000 000) are parameters.
A trial is a transition system: a step is one action of one worker, and an interleaving is the
list of the workers that act, in the order in which they act.  `counter` is an `int` in the
source and a `Nat` here; the theorems bound it by `numThreads * numIterations`. -/

/-- Where a worker of the mutex trial stands within an iteration of its loop: at the loop test
before `lock_guard` takes the mutex; holding the mutex before `counter++` reads the counter;
having read the counter before `counter++` writes it; having written the counter before the
`lock_guard` releases the mutex and `++i` runs. -/
inductive Phase where
  | test
  | hold
  | read
  | wrote
deriving DecidableEq, Repr

/-- A worker of the mutex trial: its loop variable `i`, its phase, and the value that
`counter++` has read. -/
structure MutexWorker where
  i : Nat
  phase : Phase
  tmp : Nat
deriving DecidableEq, Repr

/-- The state of the mutex trial: `counter`, the holder of `counterMutex`, the workers. -/
structure MutexState where
  counter : Nat
  owner : Option Nat
  workers : List MutexWorker
deriving DecidableEq, Repr

/-- The mutex trial once the workers are created: `counter = 0`, the mutex free. -/
def mutexInit (numThreads : Nat) : MutexState :=
  ⟨0, none, List.replicate numThreads ⟨0, Phase.test, 0⟩⟩

/-- One action of worker `t` in the mutex trial; `none` when worker `t` cannot act (it has
left its loop, or it waits for the mutex). -/
def mutexStep (numIterations : Nat) (s : MutexState) (t : Nat) : Option MutexState :=
  match s.workers[t]? with
  | none => none
  | some w =>
    match w.phase with
    | Phase.test =>
      if w.i < numIterations ∧ s.owner = none then
        some ⟨s.counter, some t, s.workers.set t ⟨w.i, Phase.hold, w.tmp⟩⟩
      else none
    | Phase.hold => some ⟨s.counter, s.owner, s.workers.set t ⟨w.i, Phase.read, s.counter⟩⟩
    | Phase.read => some ⟨w.tmp + 1, s.owner, s.workers.set t ⟨w.i, Phase.wrote, w.tmp⟩⟩
    | Phase.wrote => some ⟨s.counter, none, s.workers.set t ⟨w.i + 1, Phase.test, w.tmp⟩⟩

/-- The mutex trial along the interleaving `sched`. -/
def mutexRun (numIterations : Nat) (s : MutexState) (sched : List Nat) : Option MutexState :=
  sched.foldlM (mutexStep numIterations) s

/-- Every worker of the mutex trial has left its loop, so every `join` returns. -/
def mutexDone (numIterations : Nat) (s : MutexState) : Prop :=
  ∀ w ∈ s.workers, w.phase = Phase.test ∧ numIterations ≤ w.i

instance (numIterations : Nat) (s : MutexState) : Decidable (mutexDone numIterations s) := by
  unfold mutexDone; infer_instance

/-- The state of the atomic trial: the `std::atomic<int> counter` and the loop variable `i`
of every worker. -/
structure AtomicState where
  counter : Nat
  iters : List Nat
deriving DecidableEq, Repr

/-- The atomic trial once the workers are created. -/
def atomicInit (numThreads : Nat) : AtomicState := ⟨0, List.replicate numThreads 0⟩

/-- One action of worker `t` in the atomic trial, the indivisible `counter++` of one loop
iteration; `none` when worker `t` has left its loop. -/
def atomicStep (numIterations : Nat) (s : AtomicState) (t : Nat) : Option AtomicState :=
  match s.iters[t]? with
  | none => none
  | some i =>
    if i < numIterations then some ⟨s.counter + 1, s.iters.set t (i + 1)⟩ else none

/-- The atomic trial along the interleaving `sched`. -/
def atomicRun (numIterations : Nat) (s : AtomicState) (sched : List Nat) : Option AtomicState :=
  sched.foldlM (atomicStep numIterations) s

/-- Every worker of the atomic trial has left its loop. -/
def atomicDone (numIterations : Nat) (s : AtomicState) : Prop :=
  ∀ i ∈ s.iters, numIterations ≤ i

instance (numIterations : Nat) (s : AtomicState) : Decidable (atomicDone numIterations s) := by
  unfold atomicDone; infer_instance

/-- The increments of `counter` that a worker of the mutex trial has completed. -/
def credit (w : MutexWorker) : Nat := w.i + (if w.phase = Phase.wrote then 1 else 0)

/-- The position of a phase within an iteration. -/
def phaseIndex : Phase → Nat
  | Phase.test => 0
  | Phase.hold => 1
  | Phase.read => 2
  | Phase.wrote => 3

/-- The number of actions a worker of the mutex trial still has to take. -/
def remaining (numIterations : Nat) (w : MutexWorker) : Nat :=
  4 * (numIterations - w.i) - phaseIndex w.phase

/-- The invariant of the mutex trial: the counter is the number of completed increments, a
worker is inside its critical section exactly when it holds the mutex, and the value a worker
has read is the current counter. -/
structure MutexInv (numThreads numIterations : Nat) (s : MutexState) : Prop where
  len : s.workers.length = numThreads
  count : s.counter = (s.workers.map credit).sum
  excl : ∀ (t : Nat) (w : MutexWorker), s.workers[t]? = some w → (w.phase ≠ Phase.test ↔ s.owner = some t)
  fresh : ∀ (t : Nat) (w : MutexWorker), s.workers[t]? = some w → w.phase = Phase.read → w.tmp = s.counter
  range : ∀ (t : Nat) (w : MutexWorker), s.workers[t]? = some w →
    w.i ≤ numIterations ∧ (w.phase ≠ Phase.test → w.i < numIterations)
  own : ∀ t : Nat, s.owner = some t → t < s.workers.length

/-- The invariant of the atomic trial: the counter is the number of completed iterations. -/
structure AtomicInv (numThreads numIterations : Nat) (s : AtomicState) : Prop where
  len : s.iters.length = numThreads
  count : s.counter = s.iters.sum
  range : ∀ i ∈ s.iters, i ≤ numIterations

/-! ## The loops of the two passes agree -/

theorem blurTaskLoop_eq_seqLoop (kernel : Kernel) (input : Image) (n y : Nat) (result : Image) :
    blurTaskLoop kernel input n (y : Int) result = seqLoop kernel input n y result := by
  induction n generalizing y result with
  | zero => rfl
  | succ n ih =>
    have hy : ¬ ((y : Int) < 0) := by omega
    simp only [blurTaskLoop, seqLoop, hy, if_false, Int.toNat_natCast]
    cases input[y]? with
    | none => rfl
    | some row =>
      simp only
      cases rowLoop kernel input y row.length 0 result with
      | none => rfl
      | some r1 =>
        have h := ih (y + 1) r1
        simp only [Nat.cast_add, Nat.cast_one] at h
        simpa using h

theorem seqLoop_add (kernel : Kernel) (input : Image) (n m y : Nat) (result : Image) :
    seqLoop kernel input (n + m) y result
      = (seqLoop kernel input n y result).bind (seqLoop kernel input m (y + n)) := by
  induction n generalizing y result with
  | zero => simp [seqLoop]
  | succ n ih =>
    have e : n + 1 + m = (n + m) + 1 := by omega
    rw [e]
    simp only [seqLoop]
    cases input[y]? with
    | none => rfl
    | some row =>
      simp only
      cases rowLoop kernel input y row.length 0 result with
      | none => rfl
      | some r1 =>
        simp only
        rw [ih]
        have e2 : y + 1 + n = y + (n + 1) := by omega
        rw [e2]

theorem blurTaskWith_eq_seqLoop (kernel : Kernel) (input result : Image) (a n : Nat) :
    blurTaskWith kernel input result (a : Int) ((a + n : Nat) : Int)
      = seqLoop kernel input n a result := by
  unfold blurTaskWith
  have e : (((a + n : Nat) : Int) - (a : Int)).toNat = n := by omega
  rw [e, blurTaskLoop_eq_seqLoop]

theorem spawnLoop_eq_seqLoop (kernel : Kernel) (input : Image) (h t k : Nat) :
    ∀ (i : Nat) (result : Image), i + (k + 1) = t →
      spawnLoop kernel input (h : Int) (t : Int) ((h / t : Nat) : Int) (k + 1) (i : Int) result
        = seqLoop kernel input (h - i * (h / t)) (i * (h / t)) result := by
  induction k with
  | zero =>
    intro i result hi
    have hlast : (i : Int) = (t : Int) - 1 := by omega
    have hle : i * (h / t) ≤ h :=
      le_trans (Nat.mul_le_mul_right _ (by omega)) (Nat.mul_comm t (h / t) ▸ Nat.div_mul_le_self h t)
    have hs : stripStart ((h / t : Nat) : Int) (i : Int) = ((i * (h / t) : Nat) : Int) := by
      simp [stripStart]
    have he : stripEnd (h : Int) (t : Int) ((h / t : Nat) : Int) (i : Int)
        = ((i * (h / t) + (h - i * (h / t)) : Nat) : Int) := by
      simp only [stripEnd, hlast, if_true]
      congr 1; omega
    simp only [spawnLoop]
    rw [hs, he, blurTaskWith_eq_seqLoop]
    cases seqLoop kernel input (h - i * (h / t)) (i * (h / t)) result <;> rfl
  | succ k ih =>
    intro i result hi
    have hnl : ¬ ((i : Int) = (t : Int) - 1) := by omega
    have hle : (i + 1) * (h / t) ≤ h :=
      le_trans (Nat.mul_le_mul_right _ (by omega)) (Nat.mul_comm t (h / t) ▸ Nat.div_mul_le_self h t)
    have hs : stripStart ((h / t : Nat) : Int) (i : Int) = ((i * (h / t) : Nat) : Int) := by
      simp [stripStart]
    have he : stripEnd (h : Int) (t : Int) ((h / t : Nat) : Int) (i : Int)
        = ((i * (h / t) + h / t : Nat) : Int) := by
      simp only [stripEnd, hnl, if_false]
      push_cast; ring
    have hstep := fun r => ih (i + 1) r (by omega)
    simp only [Nat.cast_add, Nat.cast_one] at hstep
    rw [spawnLoop, hs, he, blurTaskWith_eq_seqLoop]
    have hsplit : h - i * (h / t) = h / t + (h - (i + 1) * (h / t)) := by
      have e1 : (i + 1) * (h / t) = i * (h / t) + h / t := by ring
      rw [e1] at hle ⊢
      generalize i * (h / t) = p at hle ⊢
      generalize h / t = s at hle ⊢
      omega
    rw [hsplit, seqLoop_add]
    cases seqLoop kernel input (h / t) (i * (h / t)) result with
    | none => rfl
    | some r1 =>
      simp only [Option.bind]
      rw [hstep r1]
      congr 1; ring

theorem ParallelBlurWith_eq_SequentialBlurWith (kernel : Kernel) (input : Image)
    (numThreads : Int) (hT : 1 ≤ numThreads) :
    ParallelBlurWith kernel input numThreads = SequentialBlurWith kernel input := by
  obtain ⟨t, rfl⟩ : ∃ t : Nat, numThreads = (t : Int) := ⟨numThreads.toNat, by omega⟩
  obtain ⟨k, rfl⟩ : ∃ k : Nat, t = k + 1 := ⟨t - 1, by omega⟩
  have h0 : ¬ (((k + 1 : Nat) : Int) = 0) := by omega
  unfold ParallelBlurWith SequentialBlurWith
  simp only [h0, if_false, Int.toNat_natCast]
  have hdiv : Int.tdiv (input.length : Int) ((k + 1 : Nat) : Int)
      = ((input.length / (k + 1) : Nat) : Int) := rfl
  rw [hdiv]
  have := spawnLoop_eq_seqLoop kernel input input.length (k + 1) k 0 input (by omega)
  simpa using this


/-! ## Rectangular grids -/

theorem width_of_head {img : Image} {row0 : List Color} (h0 : img[0]? = some row0) :
    width img = row0.length := by
  simp [width, h0]

theorem Rect.row_length {img : Image} (hrect : Rect img) {y : Nat} {row : List Color}
    (hrow : img[y]? = some row) : row.length = width img :=
  hrect row (List.getElem?_mem hrow)

theorem cellAt_isSome_iff {img : Image} (hrect : Rect img) (nx ny : Int) :
    (cellAt img nx ny).isSome ↔ (0 ≤ nx ∧ nx < width img) ∧ (0 ≤ ny ∧ ny < img.length) := by
  unfold cellAt
  by_cases hpos : 0 ≤ nx ∧ 0 ≤ ny
  · simp only [hpos, and_self, if_true, true_and]
    by_cases hy : ny.toNat < img.length
    · have hrow : img[ny.toNat]? = some img[ny.toNat] := List.getElem?_eq_getElem hy
      have hlen := hrect.row_length hrow
      rw [hrow]
      simp only
      by_cases hx : nx.toNat < (img[ny.toNat]).length
      · rw [List.getElem?_eq_getElem hx]
        simp only [Option.isSome_some, true_iff]
        omega
      · rw [List.getElem?_eq_none (by omega)]
        simp only [Option.isSome_none, Bool.false_eq_true, false_iff]
        omega
    · rw [List.getElem?_eq_none (by omega)]
      simp only [Option.isSome_none, Bool.false_eq_true, false_iff]
      omega
  · simp only [hpos, if_false, Option.isSome_none, Bool.false_eq_true, false_iff]
    omega

theorem visit_eq_add {img : Image} (hrect : Rect img) (hne : img ≠ []) (x y dy dx : Int)
    (acc : Acc) :
    visit img x y dy dx acc = some (acc.add (cellAt img (x + dx) (y + dy))) := by
  obtain ⟨row0, rest, rfl⟩ : ∃ row0 rest, img = row0 :: rest := by
    cases img with
    | nil => exact absurd rfl hne
    | cons a l => exact ⟨a, l, rfl⟩
  have h0 : (row0 :: rest)[0]? = some row0 := by simp
  have hw : width (row0 :: rest) = row0.length := width_of_head h0
  have hiff := cellAt_isSome_iff hrect (x + dx) (y + dy)
  rw [hw] at hiff
  unfold visit
  simp only [h0]
  by_cases hpos : x + dx ≥ 0 ∧ y + dy ≥ 0
  · by_cases hin : x + dx < (row0.length : Int) ∧ y + dy < ((row0 :: rest).length : Int)
    · have hsome : (cellAt (row0 :: rest) (x + dx) (y + dy)).isSome := hiff.2 ⟨⟨hpos.1, hin.1⟩, hpos.2, hin.2⟩
      obtain ⟨c, hc⟩ := Option.isSome_iff_exists.1 hsome
      rw [hc]
      have hc2 := hc
      unfold cellAt at hc2
      have hpos2 : 0 ≤ x + dx ∧ 0 ≤ y + dy := hpos
      simp only [hpos2, and_self, if_true] at hc2
      simp only [hpos, hin, and_self, if_true]
      cases hrow : (row0 :: rest)[(y + dy).toNat]? with
      | none => rw [hrow] at hc2; exact absurd hc2 (by simp)
      | some row =>
        rw [hrow] at hc2
        simp only at hc2
        simp only [hc2, Acc.add]
    · have hnone : cellAt (row0 :: rest) (x + dx) (y + dy) = none := by
        cases hcell : cellAt (row0 :: rest) (x + dx) (y + dy) with
        | none => rfl
        | some c =>
          have := hiff.1 (by rw [hcell]; rfl)
          exact absurd ⟨this.1.2, this.2.2⟩ hin
      simp only [hpos, hin, and_self, if_true, if_false, hnone, Acc.add]
  · have hnone : cellAt (row0 :: rest) (x + dx) (y + dy) = none := by
      unfold cellAt
      have : ¬ (0 ≤ x + dx ∧ 0 ≤ y + dy) := hpos
      simp only [this, if_false]
    simp only [hpos, if_false, hnone, Acc.add]

theorem accumulate_eq_foldl {img : Image} (hrect : Rect img) (hne : img ≠ []) (x y : Int) :
    accumulate img x y
      = some (((window x y).map (fun p => cellAt img p.1 p.2)).foldl Acc.add ⟨0, 0, 0, 0⟩) := by
  simp only [accumulate, window, List.foldlM_cons, List.foldlM_nil, visit_eq_add hrect hne,
    Option.bind_eq_bind, Option.some_bind, Option.pure_def, List.map_cons, List.map_nil,
    List.foldl_cons, List.foldl_nil, add_zero]
  rfl

theorem foldl_add_spec {α : Type} (f : α → Option Color) (l : List α) (acc : Acc) :
    ((l.map f).foldl Acc.add acc).sumR
        = acc.sumR + ((l.filterMap f).map (fun c => c.r.val)).sum
      ∧ ((l.map f).foldl Acc.add acc).sumG
        = acc.sumG + ((l.filterMap f).map (fun c => c.g.val)).sum
      ∧ ((l.map f).foldl Acc.add acc).sumB
        = acc.sumB + ((l.filterMap f).map (fun c => c.b.val)).sum
      ∧ ((l.map f).foldl Acc.add acc).count = acc.count + (l.filterMap f).length := by
  induction l generalizing acc with
  | nil => simp
  | cons a l ih =>
    cases hfa : f a with
    | none =>
      simp only [List.map_cons, List.foldl_cons, hfa, Acc.add, List.filterMap_cons]
      exact ih acc
    | some c =>
      simp only [List.map_cons, List.foldl_cons, hfa, Acc.add, List.filterMap_cons,
        List.sum_cons, List.length_cons]
      obtain ⟨h1, h2, h3, h4⟩ := ih ⟨acc.sumR + c.r.val, acc.sumG + c.g.val, acc.sumB + c.b.val, acc.count + 1⟩
      refine ⟨?_, ?_, ?_, ?_⟩
      · rw [h1]; simp only; omega
      · rw [h2]; simp only; omega
      · rw [h3]; simp only; omega
      · rw [h4]; simp only; omega

theorem accumulate_spec {img : Image} (hrect : Rect img) (hne : img ≠ []) (x y : Int) :
    ∃ acc, accumulate img x y = some acc
      ∧ acc.sumR = ((neighbourhood img x y).map (fun c => c.r.val)).sum
      ∧ acc.sumG = ((neighbourhood img x y).map (fun c => c.g.val)).sum
      ∧ acc.sumB = ((neighbourhood img x y).map (fun c => c.b.val)).sum
      ∧ acc.count = (neighbourhood img x y).length := by
  refine ⟨_, accumulate_eq_foldl hrect hne x y, ?_⟩
  have h := foldl_add_spec (fun p : Int × Int => cellAt img p.1 p.2) (window x y) ⟨0, 0, 0, 0⟩
  simpa [neighbourhood] using h

theorem centre_mem_window (x y : Int) : (x, y) ∈ window x y := by
  simp [window]

theorem neighbourhood_length_pos {img : Image} (hrect : Rect img) {x y : Int}
    (hx : 0 ≤ x ∧ x < width img) (hy : 0 ≤ y ∧ y < img.length) :
    0 < (neighbourhood img x y).length := by
  have hsome : (cellAt img x y).isSome := (cellAt_isSome_iff hrect x y).2 ⟨hx, hy⟩
  obtain ⟨c, hc⟩ := Option.isSome_iff_exists.1 hsome
  have hmem : c ∈ neighbourhood img x y :=
    List.mem_filterMap.2 ⟨(x, y), centre_mem_window x y, hc⟩
  exact List.length_pos_of_mem hmem

theorem channel_sum_le (channel : Color → Fin 256) (cells : List Color) :
    (cells.map (fun c => (channel c).val)).sum ≤ 255 * cells.length := by
  induction cells with
  | nil => simp
  | cons c cells ih =>
    have := (channel c).isLt
    simp only [List.map_cons, List.sum_cons, List.length_cons]
    omega

theorem channelMean_lt (channel : Color → Fin 256) (cells : List Color) :
    channelMean channel cells < 256 := by
  unfold channelMean
  have h := channel_sum_le channel cells
  rcases Nat.eq_zero_or_pos cells.length with h0 | hpos
  · rw [h0]; simp
  · have : (cells.map (fun c => (channel c).val)).sum / cells.length ≤ 255 := by
      apply Nat.div_le_of_le_mul
      rw [Nat.mul_comm]; exact h
    omega

theorem toU8_channelMean (channel : Color → Fin 256) (cells : List Color) :
    (toU8 (channelMean channel cells)).val = channelMean channel cells := by
  simp only [toU8]
  exact Nat.mod_eq_of_lt (channelMean_lt channel cells)

theorem computeAverageColor_eq {img : Image} (hrect : Rect img) {x y : Int}
    (hx : 0 ≤ x ∧ x < width img) (hy : 0 ≤ y ∧ y < img.length) :
    computeAverageColor img x y
      = some ⟨toU8 (channelMean Color.r (neighbourhood img x y)),
          toU8 (channelMean Color.g (neighbourhood img x y)),
          toU8 (channelMean Color.b (neighbourhood img x y))⟩ := by
  have hne : img ≠ [] := by
    intro h; rw [h] at hy; simp at hy; omega
  obtain ⟨acc, hacc, hr, hg, hb, hc⟩ := accumulate_spec hrect hne x y
  have hpos := neighbourhood_length_pos hrect hx hy
  have hc0 : ¬ ((neighbourhood img x y).length = 0) := by omega
  simp only [computeAverageColor, hacc, hr, hg, hb, hc, hc0, if_false, channelMean]

/-! ## What the loops write -/

theorem set_getElem?_self {α : Type} {l : List α} {i : Nat} {a : α} (h : l[i]? = some a) :
    l.set i a = l := by
  apply List.ext_getElem?
  intro j
  rw [List.getElem?_set]
  by_cases hij : i = j
  · subst hij
    have hlt : i < l.length := (List.getElem?_eq_some.1 h).1
    simp [hlt, h]
  · simp [hij]

theorem getElem?_set_self_of_some {α : Type} {l : List α} {i : Nat} {a b : α}
    (h : l[i]? = some a) : (l.set i b)[i]? = some b := by
  have hlt : i < l.length := (List.getElem?_eq_some.1 h).1
  simp [List.getElem?_set, hlt]

theorem rowLoop_spec (kernel : Kernel) (input : Image) (y n : Nat) :
    ∀ (x : Nat) (result : Image) (row : List Color), result[y]? = some row →
      x + n ≤ row.length →
      (∀ x1 : Nat, x ≤ x1 → x1 < x + n → (kernel input (x1 : Int) (y : Int)).isSome) →
      ∃ row1, rowLoop kernel input y n x result = some (result.set y row1)
        ∧ row1.length = row.length
        ∧ ∀ x1 : Nat, row1[x1]?
            = if x ≤ x1 ∧ x1 < x + n then kernel input (x1 : Int) (y : Int) else row[x1]? := by
  induction n with
  | zero =>
    intro x result row hrow _ _
    refine ⟨row, ?_, rfl, ?_⟩
    · rw [set_getElem?_self hrow]; rfl
    · intro x1
      have : ¬ (x ≤ x1 ∧ x1 < x + 0) := by omega
      simp only [this, if_false]
  | succ n ih =>
    intro x result row hrow hlen hk
    obtain ⟨c, hc⟩ := Option.isSome_iff_exists.1 (hk x (le_refl x) (by omega))
    have hxlt : x < row.length := by omega
    have hw : writeCell result y x c = some (result.set y (row.set x c)) := by
      simp only [writeCell, hrow, hxlt, if_true]
    have hrow1 : (result.set y (row.set x c))[y]? = some (row.set x c) :=
      getElem?_set_self_of_some hrow
    obtain ⟨row1, h1, h2, h3⟩ := ih (x + 1) (result.set y (row.set x c)) (row.set x c) hrow1
      (by rw [List.length_set]; omega) (fun x1 hx1 hx2 => hk x1 (by omega) (by omega))
    refine ⟨row1, ?_, ?_, ?_⟩
    · simp only [rowLoop, hc, hw, h1, List.set_set]
    · rw [h2, List.length_set]
    · intro x1
      rw [h3 x1, List.getElem?_set]
      by_cases hx : x = x1
      · subst hx
        have : ¬ (x + 1 ≤ x ∧ x < x + 1 + n) := by omega
        have h5 : x ≤ x ∧ x < x + (n + 1) := by omega
        simp only [this, if_false, if_true, hxlt, hc, h5, and_self]
      · by_cases hin : x + 1 ≤ x1 ∧ x1 < x + 1 + n
        · have h5 : x ≤ x1 ∧ x1 < x + (n + 1) := by omega
          simp only [hin, h5, and_self, if_true]
        · have h5 : ¬ (x ≤ x1 ∧ x1 < x + (n + 1)) := by omega
          simp only [hin, h5, hx, if_false]

theorem cellAt_natCast (img : Image) (x y : Nat) :
    cellAt img (x : Int) (y : Int) = (img[y]?).bind (fun row => row[x]?) := by
  have hpos : 0 ≤ (x : Int) ∧ 0 ≤ (y : Int) := by omega
  simp only [cellAt, hpos, and_self, if_true, Int.toNat_natCast]
  cases img[y]? <;> rfl

theorem shape_row {result input : Image}
    (hshape : result.map List.length = input.map List.length) {y : Nat} {row : List Color}
    (hrow : input[y]? = some row) :
    ∃ rrow, result[y]? = some rrow ∧ rrow.length = row.length := by
  have h := congrArg (fun l => l[y]?) hshape
  simp only [List.getElem?_map, hrow, Option.map_some'] at h
  cases hr : result[y]? with
  | none => rw [hr] at h; exact absurd h (by simp)
  | some rrow =>
    rw [hr] at h
    exact ⟨rrow, rfl, by simpa using h⟩

theorem shape_set {result input : Image}
    (hshape : result.map List.length = input.map List.length) {y : Nat} {rrow row1 : List Color}
    (hr : result[y]? = some rrow) (hlen : row1.length = rrow.length) :
    (result.set y row1).map List.length = input.map List.length := by
  rw [List.map_set, ← hshape]
  apply set_getElem?_self
  rw [List.getElem?_map, hr, hlen]
  rfl

theorem seqLoop_spec (kernel : Kernel) (input : Image) (n : Nat) :
    ∀ (y0 : Nat) (result : Image), result.map List.length = input.map List.length →
      y0 + n ≤ input.length →
      (∀ (y x : Nat) (row : List Color), y0 ≤ y → y < y0 + n → input[y]? = some row →
        x < row.length → (kernel input (x : Int) (y : Int)).isSome) →
      ∃ out, seqLoop kernel input n y0 result = some out
        ∧ out.map List.length = input.map List.length
        ∧ (∀ y : Nat, ¬ (y0 ≤ y ∧ y < y0 + n) → out[y]? = result[y]?)
        ∧ (∀ (y x : Nat) (row : List Color), y0 ≤ y → y < y0 + n → input[y]? = some row →
            x < row.length → cellAt out (x : Int) (y : Int) = kernel input (x : Int) (y : Int)) := by
  induction n with
  | zero =>
    intro y0 result hshape _ _
    refine ⟨result, rfl, hshape, fun _ _ => rfl, ?_⟩
    intro y x row h1 h2
    omega
  | succ n ih =>
    intro y0 result hshape hle hk
    have hy0 : y0 < input.length := by omega
    have hrow : input[y0]? = some input[y0] := List.getElem?_eq_getElem hy0
    obtain ⟨rrow, hr, hrlen⟩ := shape_row hshape hrow
    obtain ⟨row1, h1, h2, h3⟩ := rowLoop_spec kernel input y0 (input[y0]).length 0 result rrow hr
      (by omega) (fun x1 _ hx1 => hk y0 x1 _ (le_refl _) (by omega) hrow (by omega))
    have hshape1 := shape_set hshape hr h2
    obtain ⟨out, g1, g2, g3, g4⟩ := ih (y0 + 1) (result.set y0 row1) hshape1 (by omega)
      (fun y x row hy1 hy2 => hk y x row (by omega) (by omega))
    refine ⟨out, ?_, g2, ?_, ?_⟩
    · simp only [seqLoop, hrow, h1, g1]
    · intro y hy
      rw [g3 y (by omega), List.getElem?_set_ne (by omega)]
    · intro y x row hy1 hy2 hyrow hx
      by_cases hy : y = y0
      · subst hy
        have hrow1 : out[y]? = some row1 := by
          rw [g3 y (by omega)]
          exact getElem?_set_self_of_some hr
        rw [hrow] at hyrow
        have hrowlen : row.length = (input[y]).length := by
          rw [← Option.some.inj hyrow]
        have hin : 0 ≤ x ∧ x < 0 + (input[y]).length := by omega
        rw [cellAt_natCast, hrow1]
        simp only [Option.some_bind, h3 x, hin, and_self, if_true]
      · exact g4 y x row (by omega) (by omega) hyrow hx

/-! ## The row ranges of the workers -/

theorem stripHeight_nonneg {H T : Int} (hH : 0 ≤ H) (hT : 1 ≤ T) : 0 ≤ H.tdiv T := by
  rw [Int.tdiv_eq_ediv hH (by omega)]
  exact Int.ediv_nonneg hH (by omega)

theorem stripHeight_mul_le {H T : Int} (hH : 0 ≤ H) (hT : 1 ≤ T) : T * H.tdiv T ≤ H := by
  rw [Int.tdiv_eq_ediv hH (by omega)]
  exact Int.mul_ediv_self_le (by omega)

theorem strip_start_le_of_lt {s i j : Int} (hs : 0 ≤ s) (hij : i < j) :
    (i + 1) * s ≤ j * s :=
  mul_le_mul_of_nonneg_right (by omega) hs

theorem strip_end_le {H T i : Int} (hH : 0 ≤ H) (hT : 1 ≤ T) (hi : i < T) :
    (strip H T i).2 ≤ H := by
  simp only [strip, stripEnd]
  split
  · exact le_refl H
  · exact le_trans (mul_le_mul_of_nonneg_right (by omega) (stripHeight_nonneg hH hT))
      (stripHeight_mul_le hH hT)

theorem strip_disjoint {H T i j y : Int} (hH : 0 ≤ H) (hT : 1 ≤ T) (hij : i < j) (hj : j < T)
    (hi2 : y < (strip H T i).2) (hj1 : (strip H T j).1 ≤ y) : False := by
  have hs := stripHeight_nonneg hH hT
  have hne : ¬ (i = T - 1) := by omega
  simp only [strip, stripEnd, stripStart, hne, if_false] at hi2 hj1
  have := strip_start_le_of_lt hs hij
  omega

theorem strip_exists {H T y : Int} (hH : 0 ≤ H) (hT : 1 ≤ T) (hy0 : 0 ≤ y) (hyH : y < H) :
    ∃ i, (0 ≤ i ∧ i < T) ∧ (strip H T i).1 ≤ y ∧ y < (strip H T i).2 := by
  have hs := stripHeight_nonneg hH hT
  have hmul := stripHeight_mul_le hH hT
  by_cases hlast : (T - 1) * H.tdiv T ≤ y
  · refine ⟨T - 1, ⟨by omega, by omega⟩, ?_, ?_⟩
    · simpa [strip, stripStart] using hlast
    · simpa [strip, stripEnd] using hyH
  · have hspos : 0 < H.tdiv T := by
      rcases lt_or_eq_of_le hs with h | h
      · exact h
      · rw [← h] at hlast; simp at hlast; omega
    have hq0 : 0 ≤ y / H.tdiv T := Int.ediv_nonneg hy0 hs
    have hq1 : y / H.tdiv T * H.tdiv T ≤ y := Int.ediv_mul_le y (by omega)
    have hq2 : y < (y / H.tdiv T + 1) * H.tdiv T := by
      have := Int.lt_ediv_add_one_mul_self y hspos
      linarith
    have hqlt : y / H.tdiv T < T - 1 := by
      by_contra hcon
      have hge : T - 1 ≤ y / H.tdiv T := by omega
      have := mul_le_mul_of_nonneg_right hge hs
      omega
    have hne : ¬ (y / H.tdiv T = T - 1) := by omega
    refine ⟨y / H.tdiv T, ⟨hq0, by omega⟩, ?_, ?_⟩
    · simpa [strip, stripStart] using hq1
    · simpa [strip, stripEnd, hne] using hq2

/-! ## The divisor -/

theorem filterMap_length_eq_filter {α β : Type} (f : α → Option β) (l : List α) :
    (l.filterMap f).length = (l.filter (fun a => (f a).isSome)).length := by
  induction l with
  | nil => rfl
  | cons a l ih =>
    cases hfa : f a with
    | none => simp [List.filterMap_cons, List.filter_cons, hfa, ih]
    | some b => simp [List.filterMap_cons, List.filter_cons, hfa, ih]

theorem neighbourhood_length {img : Image} (hrect : Rect img) (x y : Int) :
    (neighbourhood img x y).length
      = ((window x y).filter (fun p => decide (inBounds img p))).length := by
  unfold neighbourhood
  rw [filterMap_length_eq_filter]
  congr 1
  apply List.filter_congr
  intro p _
  have h := cellAt_isSome_iff hrect p.1 p.2
  by_cases hb : inBounds img p
  · rw [decide_eq_true hb]; exact h.2 hb
  · rw [decide_eq_false hb]
    cases hc : (cellAt img p.1 p.2).isSome with
    | false => rfl
    | true => exact absurd (h.1 hc) hb

theorem neighbourCount_eq {img : Image} (hrect : Rect img) (hne : img ≠ []) (x y : Int) :
    neighbourCount img x y
      = some ((window x y).filter (fun p => decide (inBounds img p))).length := by
  obtain ⟨acc, hacc, _, _, _, hc⟩ := accumulate_spec hrect hne x y
  rw [neighbourCount, hacc, Option.map_some', hc, neighbourhood_length hrect]

theorem filter3_length (P : Int → Bool) (a b c : Int) :
    ([a, b, c].filter P).length
      = (if P a then 1 else 0) + (if P b then 1 else 0) + (if P c then 1 else 0) := by
  cases ha : P a <;> cases hb : P b <;> cases hc : P c <;>
    simp [List.filter_cons, ha, hb, hc]

theorem window_count_border {w : Int} {x : Int} (hw : 2 ≤ w) (hx : 0 ≤ x ∧ x < w)
    (hb : x = 0 ∨ x = w - 1) :
    ([x - 1, x, x + 1].filter (fun nx => decide (0 ≤ nx ∧ nx < w))).length = 2 := by
  rw [filter3_length]
  have h2 : decide (0 ≤ x ∧ x < w) = true := decide_eq_true hx
  rcases hb with h | h
  · have h1 : decide (0 ≤ x - 1 ∧ x - 1 < w) = false := decide_eq_false (by omega)
    have h3 : decide (0 ≤ x + 1 ∧ x + 1 < w) = true := decide_eq_true (by omega)
    simp only [h1, h2, h3, Bool.false_eq_true, if_false, if_true]
  · have h1 : decide (0 ≤ x - 1 ∧ x - 1 < w) = true := decide_eq_true (by omega)
    have h3 : decide (0 ≤ x + 1 ∧ x + 1 < w) = false := decide_eq_false (by omega)
    simp only [h1, h2, h3, Bool.false_eq_true, if_false, if_true]

theorem window_count_inner {w : Int} {x : Int} (hx : 0 ≤ x ∧ x < w)
    (hb : ¬ (x = 0 ∨ x = w - 1)) :
    ([x - 1, x, x + 1].filter (fun nx => decide (0 ≤ nx ∧ nx < w))).length = 3 := by
  rw [filter3_length]
  have h1 : decide (0 ≤ x - 1 ∧ x - 1 < w) = true := decide_eq_true (by omega)
  have h2 : decide (0 ≤ x ∧ x < w) = true := decide_eq_true hx
  have h3 : decide (0 ≤ x + 1 ∧ x + 1 < w) = true := decide_eq_true (by omega)
  simp only [h1, h2, h3, if_true]

theorem grid3_filter_length (P Q : Int → Bool) (a1 a2 a3 b1 b2 b3 : Int) :
    ([(a1, b1), (a2, b1), (a3, b1), (a1, b2), (a2, b2), (a3, b2), (a1, b3), (a2, b3), (a3, b3)].filter
        (fun p => P p.1 && Q p.2)).length
      = ([a1, a2, a3].filter P).length * ([b1, b2, b3].filter Q).length := by
  cases h1 : P a1 <;> cases h2 : P a2 <;> cases h3 : P a3 <;>
    cases g1 : Q b1 <;> cases g2 : Q b2 <;> cases g3 : Q b3 <;>
    simp [List.filter_cons, h1, h2, h3, g1, g2, g3]

theorem window_filter_length (img : Image) (x y : Int) :
    ((window x y).filter (fun p => decide (inBounds img p))).length
      = ([x - 1, x, x + 1].filter (fun nx => decide (0 ≤ nx ∧ nx < (width img : Int)))).length
        * ([y - 1, y, y + 1].filter (fun ny => decide (0 ≤ ny ∧ ny < (img.length : Int)))).length := by
  rw [← grid3_filter_length]
  unfold window
  congr 1
  apply List.filter_congr
  intro p _
  simp only [inBounds, Bool.decide_and]

/-! ## The passes on a rectangular grid -/

theorem computeAverageColor_isSome {img : Image} (hrect : Rect img) {x y : Nat}
    {row : List Color} (hrow : img[y]? = some row) (hx : x < row.length) :
    (computeAverageColor img (x : Int) (y : Int)).isSome := by
  have hy : y < img.length := (List.getElem?_eq_some.1 hrow).1
  have hw := hrect.row_length hrow
  rw [computeAverageColor_eq hrect (by omega) (by omega)]
  rfl

theorem SequentialBlur_rect {input : Image} (hrect : Rect input) :
    ∃ out, SequentialBlur input = some out
      ∧ out.map List.length = input.map List.length
      ∧ ∀ x y : Nat, y < input.length → x < width input →
          cellAt out (x : Int) (y : Int) = computeAverageColor input (x : Int) (y : Int) := by
  obtain ⟨out, h1, h2, _, h4⟩ := seqLoop_spec computeAverageColor input input.length 0 input rfl
    (by omega) (fun y x row _ _ hrow hx => computeAverageColor_isSome hrect hrow hx)
  refine ⟨out, h1, h2, ?_⟩
  intro x y hy hx
  have hrow : input[y]? = some input[y] := List.getElem?_eq_getElem hy
  have hw := hrect.row_length hrow
  exact h4 y x _ (by omega) (by omega) hrow (by omega)

/-! ## Grids of the same shape -/

theorem rows_eq_of_cells {a b input : Image}
    (ha : a.map List.length = input.map List.length)
    (hb : b.map List.length = input.map List.length) {y : Nat} {row : List Color}
    (hrow : input[y]? = some row)
    (hcell : ∀ x : Nat, x < row.length → cellAt a (x : Int) (y : Int) = cellAt b (x : Int) (y : Int)) :
    a[y]? = b[y]? := by
  obtain ⟨ra, hra, hla⟩ := shape_row ha hrow
  obtain ⟨rb, hrb, hlb⟩ := shape_row hb hrow
  rw [hra, hrb]
  congr 1
  apply List.ext_getElem?
  intro x
  by_cases hx : x < row.length
  · have h := hcell x hx
    rw [cellAt_natCast, cellAt_natCast, hra, hrb] at h
    simpa using h
  · rw [List.getElem?_eq_none (by omega), List.getElem?_eq_none (by omega)]

theorem image_ext_of_cells {a b : Image} (hshape : a.map List.length = b.map List.length)
    (hcell : ∀ (y x : Nat) (row : List Color), b[y]? = some row → x < row.length →
      cellAt a (x : Int) (y : Int) = cellAt b (x : Int) (y : Int)) :
    a = b := by
  apply List.ext_getElem?
  intro y
  cases hrow : b[y]? with
  | none =>
    have hlen : a.length = b.length := by
      have := congrArg List.length hshape
      simpa using this
    have hy : b.length ≤ y := List.getElem?_eq_none_iff.1 hrow
    exact List.getElem?_eq_none (by omega)
  | some row =>
    rw [← hrow]
    exact rows_eq_of_cells hshape rfl hrow (fun x hx => hcell y x row hrow hx)

/-! ## Uniform grids -/

theorem mem_of_cellAt {img : Image} {nx ny : Int} {p : Color} (h : cellAt img nx ny = some p) :
    ∃ row ∈ img, p ∈ row := by
  unfold cellAt at h
  split at h
  · cases hrow : img[ny.toNat]? with
    | none => rw [hrow] at h; exact absurd h (by simp)
    | some row =>
      rw [hrow] at h
      exact ⟨row, List.getElem?_mem hrow, List.getElem?_mem h⟩
  · exact absurd h (by simp)

theorem channelMean_uniform (channel : Color → Fin 256) (c : Color) (cells : List Color)
    (hpos : 0 < cells.length) (hu : ∀ p ∈ cells, p = c) :
    channelMean channel cells = (channel c).val := by
  have hrep : cells = List.replicate cells.length c := List.eq_replicate_iff.2 ⟨rfl, hu⟩
  unfold channelMean
  have hsum : (cells.map (fun p => (channel p).val)).sum = cells.length * (channel c).val := by
    conv_lhs => rw [hrep]
    simp [List.map_replicate, List.sum_replicate]
  rw [hsum, Nat.mul_div_cancel_left _ hpos]

theorem toU8_val (v : Fin 256) : toU8 v.val = v := by
  apply Fin.ext
  simp only [toU8]
  exact Nat.mod_eq_of_lt v.isLt

theorem computeAverageColor_uniform {img : Image} {c : Color} (hrect : Rect img)
    (hu : ∀ row ∈ img, ∀ p ∈ row, p = c) {x y : Int}
    (hx : 0 ≤ x ∧ x < width img) (hy : 0 ≤ y ∧ y < img.length) :
    computeAverageColor img x y = some c := by
  have hpos := neighbourhood_length_pos hrect hx hy
  have hall : ∀ p ∈ neighbourhood img x y, p = c := by
    intro p hp
    obtain ⟨q, _, hq⟩ := List.mem_filterMap.1 hp
    obtain ⟨row, hrow, hmem⟩ := mem_of_cellAt hq
    exact hu row hrow p hmem
  rw [computeAverageColor_eq hrect hx hy, channelMean_uniform Color.r c _ hpos hall,
    channelMean_uniform Color.g c _ hpos hall, channelMean_uniform Color.b c _ hpos hall,
    toU8_val, toU8_val, toU8_val]

/-! ## Grids without cells -/

theorem seqLoop_cell_free (kernel : Kernel) (input : Image)
    (hempty : ∀ row ∈ input, row = []) (n : Nat) :
    ∀ (y0 : Nat) (result : Image), y0 + n ≤ input.length →
      seqLoop kernel input n y0 result = some result := by
  induction n with
  | zero => intro y0 result _; rfl
  | succ n ih =>
    intro y0 result hle
    have hy0 : y0 < input.length := by omega
    have hrow : input[y0]? = some input[y0] := List.getElem?_eq_getElem hy0
    have hnil : input[y0] = [] := hempty _ (List.getElem_mem hy0)
    simp only [seqLoop, hrow, hnil, List.length_nil, rowLoop]
    exact ih (y0 + 1) result (by omega)

theorem cellAt_cell_free {img : Image} (hempty : ∀ row ∈ img, row = []) (x y : Int) :
    cellAt img x y = none := by
  cases h : cellAt img x y with
  | none => rfl
  | some p =>
    obtain ⟨row, hrow, hmem⟩ := mem_of_cellAt h
    rw [hempty row hrow] at hmem
    exact absurd hmem (List.not_mem_nil p)

/-! ## A pass that returns has evaluated the per-pixel function on every cell it writes -/

theorem rowLoop_kernel_isSome (kernel : Kernel) (input : Image) (y n : Nat) :
    ∀ (x : Nat) (result out : Image), rowLoop kernel input y n x result = some out →
      ∀ x1 : Nat, x ≤ x1 → x1 < x + n → (kernel input (x1 : Int) (y : Int)).isSome := by
  induction n with
  | zero => intro x result out _ x1 h1 h2; omega
  | succ n ih =>
    intro x result out hrun x1 h1 h2
    simp only [rowLoop] at hrun
    cases hc : kernel input (x : Int) (y : Int) with
    | none => rw [hc] at hrun; exact absurd hrun (by simp)
    | some c =>
      rw [hc] at hrun
      simp only at hrun
      cases hw : writeCell result y x c with
      | none => rw [hw] at hrun; exact absurd hrun (by simp)
      | some r1 =>
        rw [hw] at hrun
        simp only at hrun
        by_cases hx : x1 = x
        · rw [hx, hc]; rfl
        · exact ih (x + 1) r1 out hrun x1 (by omega) (by omega)

theorem seqLoop_kernel_isSome (kernel : Kernel) (input : Image) (n : Nat) :
    ∀ (y0 : Nat) (result out : Image), seqLoop kernel input n y0 result = some out →
      ∀ (y x : Nat) (row : List Color), y0 ≤ y → y < y0 + n → input[y]? = some row →
        x < row.length → (kernel input (x : Int) (y : Int)).isSome := by
  induction n with
  | zero => intro y0 result out _ y x row h1 h2; omega
  | succ n ih =>
    intro y0 result out hrun y x row h1 h2 hrow hx
    simp only [seqLoop] at hrun
    cases hrow0 : input[y0]? with
    | none => rw [hrow0] at hrun; exact absurd hrun (by simp)
    | some row0 =>
      rw [hrow0] at hrun
      simp only at hrun
      cases hr : rowLoop kernel input y0 row0.length 0 result with
      | none => rw [hr] at hrun; exact absurd hrun (by simp)
      | some r1 =>
        rw [hr] at hrun
        simp only at hrun
        by_cases hy : y = y0
        · subst hy
          rw [hrow0] at hrow
          have hlen : row.length = row0.length := by rw [← Option.some.inj hrow]
          exact rowLoop_kernel_isSome kernel input y row0.length 0 result r1 hr x (by omega)
            (by omega)
        · exact ih (y0 + 1) r1 out hrun y x row (by omega) (by omega) hrow hx

/-! ## Empty and degenerate row ranges -/

theorem blurTaskWith_of_le (kernel : Kernel) (input result : Image) {startY endY : Int}
    (h : endY ≤ startY) : blurTaskWith kernel input result startY endY = some result := by
  have e : (endY - startY).toNat = 0 := by omega
  simp only [blurTaskWith, e, blurTaskLoop]

theorem stripHeight_eq_zero {H T : Int} (hH : 0 ≤ H) (hlt : H < T) : H.tdiv T = 0 := by
  rw [Int.tdiv_eq_ediv hH (by omega)]
  exact Int.ediv_eq_zero_of_lt hH hlt

theorem strip_of_lt {H T i : Int} (hH : 0 ≤ H) (hlt : H < T) (hi : i < T - 1) :
    strip H T i = (0, 0) := by
  have hne : ¬ (i = T - 1) := by omega
  simp only [strip, stripStart, stripEnd, stripHeight_eq_zero hH hlt, hne, if_false, mul_zero]

theorem strip_last_of_lt {H T : Int} (hH : 0 ≤ H) (hlt : H < T) :
    strip H T (T - 1) = (0, H) := by
  simp only [strip, stripStart, stripEnd, stripHeight_eq_zero hH hlt, if_true, mul_zero]

/-! ## Bounds on the mean -/

theorem min?_le_of_mem {l : List Nat} {lo : Nat} (h : l.min? = some lo) :
    ∀ b ∈ l, lo ≤ b :=
  (List.le_min?_iff (fun _ _ _ => Nat.le_min) h).1 (le_refl lo)

theorem le_max?_of_mem {l : List Nat} {hi : Nat} (h : l.max? = some hi) :
    ∀ b ∈ l, b ≤ hi :=
  (List.max?_le_iff (fun _ _ _ => Nat.max_le) h).1 (le_refl hi)

theorem sum_ge_of_forall_ge {l : List Nat} {m : Nat} (h : ∀ b ∈ l, m ≤ b) :
    m * l.length ≤ l.sum := by
  induction l with
  | nil => simp
  | cons a l ih =>
    have h1 := h a (List.mem_cons_self a l)
    have h2 := ih (fun b hb => h b (List.mem_cons_of_mem a hb))
    simp only [List.length_cons, List.sum_cons, Nat.mul_succ]
    omega

theorem sum_le_of_forall_le {l : List Nat} {m : Nat} (h : ∀ b ∈ l, b ≤ m) :
    l.sum ≤ m * l.length := by
  induction l with
  | nil => simp
  | cons a l ih =>
    have h1 := h a (List.mem_cons_self a l)
    have h2 := ih (fun b hb => h b (List.mem_cons_of_mem a hb))
    simp only [List.length_cons, List.sum_cons, Nat.mul_succ]
    omega

theorem channelMean_between (channel : Color → Fin 256) (cells : List Color)
    (hpos : 0 < cells.length) :
    BetweenMinMax (cells.map (fun c => (channel c).val)) (channelMean channel cells) := by
  have hne : cells.map (fun c => (channel c).val) ≠ [] := by
    intro h
    have hl := congrArg List.length h
    rw [List.length_map, List.length_nil] at hl
    omega
  cases hlo : (cells.map (fun c => (channel c).val)).min? with
  | none => exact absurd (List.min?_eq_none_iff.1 hlo) hne
  | some lo =>
    cases hhi : (cells.map (fun c => (channel c).val)).max? with
    | none => exact absurd (List.max?_eq_none_iff.1 hhi) hne
    | some hi =>
      refine ⟨lo, hi, hlo, hhi, ?_, ?_⟩
      · have h := sum_ge_of_forall_ge (min?_le_of_mem hlo)
        rw [List.length_map] at h
        exact (Nat.le_div_iff_mul_le hpos).2 h
      · have h := sum_le_of_forall_le (le_max?_of_mem hhi)
        rw [List.length_map] at h
        apply Nat.div_le_of_le_mul
        rw [Nat.mul_comm]; exact h

theorem neighbourhood_length_le (img : Image) (x y : Int) :
    (neighbourhood img x y).length ≤ 9 :=
  List.length_filterMap_le _ (window x y)

/-! ## The workers in any order -/

theorem spawnLoop_eq_foldlM (kernel : Kernel) (input : Image) (numThreads : Int) (n : Nat) :
    ∀ (i : Nat) (result : Image),
      spawnLoop kernel input (input.length : Int) numThreads
          ((input.length : Int).tdiv numThreads) n (i : Int) result
        = (List.range' i n).foldlM
            (fun (r : Image) (j : Nat) =>
              blurTaskWith kernel input r (strip input.length numThreads (j : Int)).1
                (strip input.length numThreads (j : Int)).2)
            result := by
  induction n with
  | zero => intro i result; rfl
  | succ n ih =>
    intro i result
    have hstep := ih (i + 1)
    simp only [Nat.cast_add, Nat.cast_one] at hstep
    simp only [spawnLoop, List.range'_succ, List.foldlM_cons, strip]
    cases blurTaskWith kernel input result (stripStart ((input.length : Int).tdiv numThreads) i)
        (stripEnd input.length numThreads ((input.length : Int).tdiv numThreads) i) with
    | none => rfl
    | some r1 => exact hstep r1

theorem ParallelBlurWith_eq_runWorkersWith (kernel : Kernel) (input : Image)
    (numThreads : Int) (hT : numThreads ≠ 0) :
    ParallelBlurWith kernel input numThreads
      = runWorkersWith kernel input numThreads (List.range numThreads.toNat) input := by
  have h := spawnLoop_eq_foldlM kernel input numThreads numThreads.toNat 0 input
  simp only [Nat.cast_zero] at h
  simp only [ParallelBlurWith, hT, if_false, runWorkersWith, List.range_eq_range', h]

theorem strip_start_le_end {H T : Int} (i : Int) (hH : 0 ≤ H) (hT : 1 ≤ T) :
    (strip H T i).1 ≤ (strip H T i).2 := by
  have hs := stripHeight_nonneg hH hT
  have hmul := stripHeight_mul_le hH hT
  simp only [strip, stripStart, stripEnd]
  split
  · have h1 : i * H.tdiv T ≤ T * H.tdiv T := mul_le_mul_of_nonneg_right (by omega) hs
    omega
  · exact mul_le_mul_of_nonneg_right (by omega) hs

theorem strip_nat {H : Nat} {T : Int} (hT : 1 ≤ T) {i : Nat} (hi : (i : Int) < T) :
    ∃ a n : Nat, (strip H T i).1 = (a : Int) ∧ (strip H T i).2 = ((a + n : Nat) : Int)
      ∧ a + n ≤ H := by
  have hH : (0 : Int) ≤ (H : Int) := Int.natCast_nonneg H
  have hs := stripHeight_nonneg hH hT
  have h0 : 0 ≤ (strip H T i).1 := by
    simp only [strip, stripStart]
    exact mul_nonneg (Int.natCast_nonneg i) hs
  have h1 := strip_start_le_end (i : Int) hH hT
  have h2 := strip_end_le hH hT hi
  refine ⟨(strip H T i).1.toNat, ((strip H T i).2 - (strip H T i).1).toNat, ?_, ?_, ?_⟩
  · omega
  · omega
  · omega

theorem worker_spec (kernel : Kernel) (input result : Image) {T : Int} (hT : 1 ≤ T)
    {i : Nat} (hi : (i : Int) < T) (hK : KernelDefined kernel input)
    (hshape : result.map List.length = input.map List.length) :
    ∃ out, blurTaskWith kernel input result (strip input.length T i).1
          (strip input.length T i).2 = some out
      ∧ out.map List.length = input.map List.length
      ∧ (∀ y : Nat, ¬ ((strip input.length T i).1 ≤ (y : Int)
            ∧ (y : Int) < (strip input.length T i).2) → out[y]? = result[y]?)
      ∧ (∀ (y x : Nat) (row : List Color), (strip input.length T i).1 ≤ (y : Int) →
            (y : Int) < (strip input.length T i).2 → input[y]? = some row → x < row.length →
            cellAt out (x : Int) (y : Int) = kernel input (x : Int) (y : Int)) := by
  obtain ⟨a, n, ha, hn, hle⟩ := strip_nat hT hi
  rw [ha, hn, blurTaskWith_eq_seqLoop]
  obtain ⟨out, g1, g2, g3, g4⟩ := seqLoop_spec kernel input n a result hshape hle
    (fun y x row _ _ hrow hx => hK y x row hrow hx)
  refine ⟨out, g1, g2, ?_, ?_⟩
  · intro y hy
    exact g3 y (by omega)
  · intro y x row h1 h2 hrow hx
    exact g4 y x row (by omega) (by omega) hrow hx

theorem worker_kernel_isSome (kernel : Kernel) (input result out : Image) {T : Int}
    (hT : 1 ≤ T) {i : Nat} (hi : (i : Int) < T)
    (hrun : blurTaskWith kernel input result (strip input.length T i).1
      (strip input.length T i).2 = some out) :
    ∀ (y x : Nat) (row : List Color), (strip input.length T i).1 ≤ (y : Int) →
      (y : Int) < (strip input.length T i).2 → input[y]? = some row → x < row.length →
      (kernel input (x : Int) (y : Int)).isSome := by
  obtain ⟨a, n, ha, hn, _⟩ := strip_nat hT hi
  rw [ha, hn, blurTaskWith_eq_seqLoop] at hrun
  intro y x row h1 h2 hrow hx
  rw [ha] at h1
  rw [hn] at h2
  exact seqLoop_kernel_isSome kernel input n a result out hrun y x row (by omega) (by omega)
    hrow hx

theorem runWorkersWith_cons (kernel : Kernel) (input : Image) (T : Int) (i : Nat)
    (rest : List Nat) (result : Image) :
    runWorkersWith kernel input T (i :: rest) result
      = (blurTaskWith kernel input result (strip input.length T i).1
          (strip input.length T i).2).bind (runWorkersWith kernel input T rest) := by
  simp only [runWorkersWith, List.foldlM_cons]
  rfl

theorem runWorkersWith_spec (kernel : Kernel) (input : Image) {T : Int} (hT : 1 ≤ T)
    (hK : KernelDefined kernel input) (order : List Nat) :
    ∀ result : Image, (∀ i ∈ order, (i : Int) < T) →
      result.map List.length = input.map List.length →
      ∃ out, runWorkersWith kernel input T order result = some out
        ∧ out.map List.length = input.map List.length
        ∧ ∀ (y x : Nat) (row : List Color), input[y]? = some row → x < row.length →
            cellAt out (x : Int) (y : Int) = kernel input (x : Int) (y : Int)
              ∨ (cellAt out (x : Int) (y : Int) = cellAt result (x : Int) (y : Int)
                ∧ ∀ i ∈ order, ¬ ((strip input.length T (i : Nat)).1 ≤ (y : Int)
                    ∧ (y : Int) < (strip input.length T (i : Nat)).2)) := by
  induction order with
  | nil =>
    intro result _ hshape
    refine ⟨result, rfl, hshape, ?_⟩
    intro y x row _ _
    exact Or.inr ⟨rfl, fun i hi => absurd hi (List.not_mem_nil i)⟩
  | cons i rest ih =>
    intro result hall hshape
    obtain ⟨r1, h1, h2, h3, h4⟩ := worker_spec kernel input result hT
      (hall i (List.mem_cons_self i rest)) hK hshape
    obtain ⟨out, g1, g2, g3⟩ := ih r1 (fun j hj => hall j (List.mem_cons_of_mem i hj)) h2
    refine ⟨out, ?_, g2, ?_⟩
    · rw [runWorkersWith_cons, h1]
      exact g1
    · intro y x row hrow hx
      rcases g3 y x row hrow hx with hk | ⟨hsame, hnot⟩
      · exact Or.inl hk
      · by_cases hin : (strip input.length T (i : Nat)).1 ≤ (y : Int)
            ∧ (y : Int) < (strip input.length T (i : Nat)).2
        · left
          rw [hsame]
          exact h4 y x row hin.1 hin.2 hrow hx
        · right
          refine ⟨?_, ?_⟩
          · rw [hsame, cellAt_natCast, cellAt_natCast, h3 y hin]
          · intro j hj
            rcases List.mem_cons.1 hj with hji | hjr
            · rw [hji]; exact hin
            · exact hnot j hjr

theorem runWorkersWith_kernel_isSome (kernel : Kernel) (input : Image) {T : Int}
    (hT : 1 ≤ T) (order : List Nat) :
    ∀ result out : Image, (∀ i ∈ order, (i : Int) < T) →
      runWorkersWith kernel input T order result = some out →
      ∀ i ∈ order, ∀ (y x : Nat) (row : List Color),
        (strip input.length T (i : Nat)).1 ≤ (y : Int) →
        (y : Int) < (strip input.length T (i : Nat)).2 → input[y]? = some row →
        x < row.length → (kernel input (x : Int) (y : Int)).isSome := by
  induction order with
  | nil => intro result out _ _ i hi; exact absurd hi (List.not_mem_nil i)
  | cons j rest ih =>
    intro result out hall hrun i hi
    rw [runWorkersWith_cons] at hrun
    cases h1 : blurTaskWith kernel input result (strip input.length T j).1
        (strip input.length T j).2 with
    | none => rw [h1] at hrun; exact absurd hrun (by simp)
    | some r1 =>
      rw [h1] at hrun
      rcases List.mem_cons.1 hi with hij | hir
      · rw [hij]
        exact worker_kernel_isSome kernel input result r1 hT
          (hall j (List.mem_cons_self j rest)) h1
      · exact ih r1 out (fun k hk => hall k (List.mem_cons_of_mem j hk)) hrun i hir

theorem row_covered {input : Image} {T : Int} (hT : 1 ≤ T) {order : List Nat}
    (hperm : order.Perm (List.range T.toNat)) {y : Nat} (hy : y < input.length) :
    ∃ i ∈ order, (strip input.length T (i : Nat)).1 ≤ (y : Int)
      ∧ (y : Int) < (strip input.length T (i : Nat)).2 := by
  obtain ⟨i, ⟨hi0, hiT⟩, h1, h2⟩ := strip_exists (Int.natCast_nonneg input.length) hT
    (Int.natCast_nonneg y) (by omega : (y : Int) < (input.length : Int))
  have hcast : ((i.toNat : Nat) : Int) = i := Int.toNat_of_nonneg hi0
  refine ⟨i.toNat, ?_, ?_, ?_⟩
  · exact (hperm.mem_iff).2 (List.mem_range.2 (by omega))
  · rw [hcast]; exact h1
  · rw [hcast]; exact h2

theorem order_lt_of_perm {T : Int} {order : List Nat}
    (hperm : order.Perm (List.range T.toNat)) : ∀ i ∈ order, (i : Int) < T := by
  intro i hi
  have := List.mem_range.1 ((hperm.mem_iff).1 hi)
  omega

theorem image_eq_of_cells {a b input : Image}
    (ha : a.map List.length = input.map List.length)
    (hb : b.map List.length = input.map List.length)
    (hcell : ∀ (y x : Nat) (row : List Color), input[y]? = some row → x < row.length →
      cellAt a (x : Int) (y : Int) = cellAt b (x : Int) (y : Int)) :
    a = b := by
  apply List.ext_getElem?
  intro y
  cases hrow : input[y]? with
  | none =>
    have hla : a.length = input.length := by simpa using congrArg List.length ha
    have hlb : b.length = input.length := by simpa using congrArg List.length hb
    have hy : input.length ≤ y := List.getElem?_eq_none_iff.1 hrow
    rw [List.getElem?_eq_none (by omega), List.getElem?_eq_none (by omega)]
  | some row => exact rows_eq_of_cells ha hb hrow (fun x hx => hcell y x row hrow hx)

theorem runWorkersWith_eq_SequentialBlurWith (kernel : Kernel) (input : Image) {T : Int}
    (hT : 1 ≤ T) {order : List Nat} (hperm : order.Perm (List.range T.toNat)) :
    runWorkersWith kernel input T order input = SequentialBlurWith kernel input := by
  have hall := order_lt_of_perm hperm
  by_cases hK : KernelDefined kernel input
  · obtain ⟨outS, s1, s2, _, s4⟩ := seqLoop_spec kernel input input.length 0 input rfl
      (by omega) (fun y x row _ _ hrow hx => hK y x row hrow hx)
    obtain ⟨outR, r1, r2, r3⟩ := runWorkersWith_spec kernel input hT hK order input hall rfl
    have heq : outR = outS := by
      apply image_eq_of_cells r2 s2
      intro y x row hrow hx
      have hy : y < input.length := (List.getElem?_eq_some.1 hrow).1
      rw [s4 y x row (by omega) (by omega) hrow hx]
      rcases r3 y x row hrow hx with hk | ⟨_, hnot⟩
      · exact hk
      · obtain ⟨i, hi, h1, h2⟩ := row_covered hT hperm hy
        exact absurd ⟨h1, h2⟩ (hnot i hi)
    rw [r1, heq]
    exact s1.symm
  · have hS : SequentialBlurWith kernel input = none := by
      cases h : SequentialBlurWith kernel input with
      | none => rfl
      | some out =>
        exfalso
        apply hK
        intro y x row hrow hx
        have hy : y < input.length := (List.getElem?_eq_some.1 hrow).1
        exact seqLoop_kernel_isSome kernel input input.length 0 input out h y x row (by omega)
          (by omega) hrow hx
    have hR : runWorkersWith kernel input T order input = none := by
      cases h : runWorkersWith kernel input T order input with
      | none => rfl
      | some out =>
        exfalso
        apply hK
        intro y x row hrow hx
        have hy : y < input.length := (List.getElem?_eq_some.1 hrow).1
        obtain ⟨i, hi, h1, h2⟩ := row_covered hT hperm hy
        exact runWorkersWith_kernel_isSome kernel input hT order input out hall h i hi y x row
          h1 h2 hrow hx
    rw [hS, hR]

/-! ## The counter trials -/

theorem sum_map_set {α : Type} (f : α → Nat) {l : List α} {t : Nat} {a : α} (b : α)
    (h : l[t]? = some a) :
    ((l.set t b).map f).sum + f a = (l.map f).sum + f b := by
  induction l generalizing t with
  | nil => simp at h
  | cons x l ih =>
    cases t with
    | zero =>
      simp only [List.getElem?_cons_zero, Option.some.injEq] at h
      subst h
      simp only [List.set_cons_zero, List.map_cons, List.sum_cons]
      omega
    | succ t =>
      simp only [List.getElem?_cons_succ] at h
      have := ih h
      simp only [List.set_cons_succ, List.map_cons, List.sum_cons]
      omega

theorem getElem?_set_cases {α : Type} {l : List α} {t u : Nat} {b v : α}
    (h : (l.set t b)[u]? = some v) : (u = t ∧ v = b) ∨ (u ≠ t ∧ l[u]? = some v) := by
  rw [List.getElem?_set] at h
  by_cases htu : t = u
  · left
    rw [if_pos htu] at h
    split at h
    · exact ⟨htu.symm, (Option.some.inj h).symm⟩
    · exact absurd h (by simp)
  · right
    rw [if_neg htu] at h
    exact ⟨fun e => htu e.symm, h⟩

theorem mutexStep_inv {T N : Nat} {s s1 : MutexState} {t : Nat} (hinv : MutexInv T N s)
    (hstep : mutexStep N s t = some s1) :
    MutexInv T N s1
      ∧ (s1.workers.map (remaining N)).sum + 1 = (s.workers.map (remaining N)).sum := by
  unfold mutexStep at hstep
  cases hw : s.workers[t]? with
  | none => rw [hw] at hstep; exact absurd hstep (by simp)
  | some w =>
    rw [hw] at hstep
    simp only at hstep
    have htlt : t < s.workers.length := (List.getElem?_eq_some.1 hw).1
    obtain ⟨hi, hlt⟩ := hinv.range t w hw
    have hex := hinv.excl t w hw
    have hcount := hinv.count
    cases hp : w.phase with
    | test =>
      rw [hp] at hstep
      simp only at hstep
      split at hstep
      · rename_i hcond
        obtain ⟨hiN, hown⟩ := hcond
        have hs1 := (Option.some.inj hstep).symm
        subst hs1
        have hcr := sum_map_set credit (⟨w.i, Phase.hold, w.tmp⟩ : MutexWorker) hw
        have hrm := sum_map_set (remaining N) (⟨w.i, Phase.hold, w.tmp⟩ : MutexWorker) hw
        have c1 : credit w = w.i := by simp [credit, hp]
        have c2 : credit (⟨w.i, Phase.hold, w.tmp⟩ : MutexWorker) = w.i := by simp [credit]
        have r1 : remaining N w = 4 * (N - w.i) := by simp [remaining, phaseIndex, hp]
        have r2 : remaining N (⟨w.i, Phase.hold, w.tmp⟩ : MutexWorker) = 4 * (N - w.i) - 1 := by
          simp [remaining, phaseIndex]
        rw [c1, c2] at hcr
        rw [r1, r2] at hrm
        refine ⟨⟨?_, ?_, ?_, ?_, ?_, ?_⟩, ?_⟩
        · show (s.workers.set t _).length = T
          rw [List.length_set]; exact hinv.len
        · show s.counter = ((s.workers.set t _).map credit).sum
          omega
        · intro u v huv
          rcases getElem?_set_cases huv with ⟨hu, hv⟩ | ⟨hu, hv⟩
          · subst hu; subst hv; simp
          · have hold := hinv.excl u v hv
            rw [hown] at hold
            have hvt : v.phase = Phase.test := by
              by_contra hne
              exact absurd (hold.1 hne) (by simp)
            simp only [hvt, ne_eq, not_true_eq_false, Option.some.injEq, false_iff]
            exact fun e => hu e.symm
        · intro u v huv hvr
          rcases getElem?_set_cases huv with ⟨hu, hv⟩ | ⟨hu, hv⟩
          · subst hv; simp at hvr
          · exact hinv.fresh u v hv hvr
        · intro u v huv
          rcases getElem?_set_cases huv with ⟨hu, hv⟩ | ⟨hu, hv⟩
          · subst hv; exact ⟨hi, fun _ => hiN⟩
          · exact hinv.range u v hv
        · intro u hu
          have hut : t = u := Option.some.inj hu
          subst hut
          show t < (s.workers.set t _).length
          rw [List.length_set]; exact htlt
        · show ((s.workers.set t _).map (remaining N)).sum + 1 = _
          omega
      · exact absurd hstep (by simp)
    | hold =>
      rw [hp] at hstep
      simp only at hstep
      have hs1 := (Option.some.inj hstep).symm
      subst hs1
      have hne : w.phase ≠ Phase.test := by rw [hp]; simp
      have hown : s.owner = some t := hex.1 hne
      have hiN := hlt hne
      have hcr := sum_map_set credit (⟨w.i, Phase.read, s.counter⟩ : MutexWorker) hw
      have hrm := sum_map_set (remaining N) (⟨w.i, Phase.read, s.counter⟩ : MutexWorker) hw
      have c1 : credit w = w.i := by simp [credit, hp]
      have c2 : credit (⟨w.i, Phase.read, s.counter⟩ : MutexWorker) = w.i := by simp [credit]
      have r1 : remaining N w = 4 * (N - w.i) - 1 := by simp [remaining, phaseIndex, hp]
      have r2 : remaining N (⟨w.i, Phase.read, s.counter⟩ : MutexWorker)
          = 4 * (N - w.i) - 2 := by simp [remaining, phaseIndex]
      rw [c1, c2] at hcr
      rw [r1, r2] at hrm
      refine ⟨⟨?_, ?_, ?_, ?_, ?_, ?_⟩, ?_⟩
      · show (s.workers.set t _).length = T
        rw [List.length_set]; exact hinv.len
      · show s.counter = ((s.workers.set t _).map credit).sum
        omega
      · intro u v huv
        rcases getElem?_set_cases huv with ⟨hu, hv⟩ | ⟨hu, hv⟩
        · subst hu; subst hv
          show Phase.read ≠ Phase.test ↔ s.owner = some u
          simp [hown]
        · exact hinv.excl u v hv
      · intro u v huv hvr
        rcases getElem?_set_cases huv with ⟨hu, hv⟩ | ⟨hu, hv⟩
        · subst hv; rfl
        · exact hinv.fresh u v hv hvr
      · intro u v huv
        rcases getElem?_set_cases huv with ⟨hu, hv⟩ | ⟨hu, hv⟩
        · subst hv; exact ⟨hi, fun _ => hiN⟩
        · exact hinv.range u v hv
      · intro u hu
        show u < (s.workers.set t _).length
        rw [List.length_set]; exact hinv.own u hu
      · show ((s.workers.set t _).map (remaining N)).sum + 1 = _
        omega
    | read =>
      rw [hp] at hstep
      simp only at hstep
      have hs1 := (Option.some.inj hstep).symm
      subst hs1
      have hne : w.phase ≠ Phase.test := by rw [hp]; simp
      have hown : s.owner = some t := hex.1 hne
      have hiN := hlt hne
      have htmp : w.tmp = s.counter := hinv.fresh t w hw hp
      have hcr := sum_map_set credit (⟨w.i, Phase.wrote, w.tmp⟩ : MutexWorker) hw
      have hrm := sum_map_set (remaining N) (⟨w.i, Phase.wrote, w.tmp⟩ : MutexWorker) hw
      have c1 : credit w = w.i := by simp [credit, hp]
      have c2 : credit (⟨w.i, Phase.wrote, w.tmp⟩ : MutexWorker) = w.i + 1 := by
        simp [credit]
      have r1 : remaining N w = 4 * (N - w.i) - 2 := by simp [remaining, phaseIndex, hp]
      have r2 : remaining N (⟨w.i, Phase.wrote, w.tmp⟩ : MutexWorker)
          = 4 * (N - w.i) - 3 := by simp [remaining, phaseIndex]
      rw [c1, c2] at hcr
      rw [r1, r2] at hrm
      refine ⟨⟨?_, ?_, ?_, ?_, ?_, ?_⟩, ?_⟩
      · show (s.workers.set t _).length = T
        rw [List.length_set]; exact hinv.len
      · show w.tmp + 1 = ((s.workers.set t _).map credit).sum
        omega
      · intro u v huv
        rcases getElem?_set_cases huv with ⟨hu, hv⟩ | ⟨hu, hv⟩
        · subst hu; subst hv
          show Phase.wrote ≠ Phase.test ↔ s.owner = some u
          simp [hown]
        · exact hinv.excl u v hv
      · intro u v huv hvr
        rcases getElem?_set_cases huv with ⟨hu, hv⟩ | ⟨hu, hv⟩
        · subst hv; exact absurd hvr (by simp)
        · have hvne : v.phase ≠ Phase.test := by rw [hvr]; simp
          have hou := (hinv.excl u v hv).1 hvne
          rw [hown] at hou
          exact absurd (Option.some.inj hou).symm hu
      · intro u v huv
        rcases getElem?_set_cases huv with ⟨hu, hv⟩ | ⟨hu, hv⟩
        · subst hv; exact ⟨hi, fun _ => hiN⟩
        · exact hinv.range u v hv
      · intro u hu
        show u < (s.workers.set t _).length
        rw [List.length_set]; exact hinv.own u hu
      · show ((s.workers.set t _).map (remaining N)).sum + 1 = _
        omega
    | wrote =>
      rw [hp] at hstep
      simp only at hstep
      have hs1 := (Option.some.inj hstep).symm
      subst hs1
      have hne : w.phase ≠ Phase.test := by rw [hp]; simp
      have hown : s.owner = some t := hex.1 hne
      have hiN := hlt hne
      have hcr := sum_map_set credit (⟨w.i + 1, Phase.test, w.tmp⟩ : MutexWorker) hw
      have hrm := sum_map_set (remaining N) (⟨w.i + 1, Phase.test, w.tmp⟩ : MutexWorker) hw
      have c1 : credit w = w.i + 1 := by simp [credit, hp]
      have c2 : credit (⟨w.i + 1, Phase.test, w.tmp⟩ : MutexWorker) = w.i + 1 := by
        simp [credit]
      have r1 : remaining N w = 4 * (N - w.i) - 3 := by simp [remaining, phaseIndex, hp]
      have r2 : remaining N (⟨w.i + 1, Phase.test, w.tmp⟩ : MutexWorker)
          = 4 * (N - (w.i + 1)) := by simp [remaining, phaseIndex]
      rw [c1, c2] at hcr
      rw [r1, r2] at hrm
      refine ⟨⟨?_, ?_, ?_, ?_, ?_, ?_⟩, ?_⟩
      · show (s.workers.set t _).length = T
        rw [List.length_set]; exact hinv.len
      · show s.counter = ((s.workers.set t _).map credit).sum
        omega
      · intro u v huv
        rcases getElem?_set_cases huv with ⟨hu, hv⟩ | ⟨hu, hv⟩
        · subst hu; subst hv
          show Phase.test ≠ Phase.test ↔ (none : Option Nat) = some u
          simp
        · have hold := hinv.excl u v hv
          rw [hown] at hold
          have hvt : v.phase = Phase.test := by
            by_contra hvne
            exact absurd (Option.some.inj (hold.1 hvne)).symm hu
          show v.phase ≠ Phase.test ↔ (none : Option Nat) = some u
          simp [hvt]
      · intro u v huv hvr
        rcases getElem?_set_cases huv with ⟨hu, hv⟩ | ⟨hu, hv⟩
        · subst hv; exact absurd hvr (by simp)
        · have hvne : v.phase ≠ Phase.test := by rw [hvr]; simp
          have hou := (hinv.excl u v hv).1 hvne
          rw [hown] at hou
          exact absurd (Option.some.inj hou).symm hu
      · intro u v huv
        rcases getElem?_set_cases huv with ⟨hu, hv⟩ | ⟨hu, hv⟩
        · subst hv; exact ⟨by show w.i + 1 ≤ N; omega, fun h => absurd rfl h⟩
        · exact hinv.range u v hv
      · intro u hu
        exact absurd hu (by simp)
      · show ((s.workers.set t _).map (remaining N)).sum + 1 = _
        omega

theorem mutexInit_inv (T N : Nat) : MutexInv T N (mutexInit T) := by
  have hmem : ∀ (t : Nat) (w : MutexWorker), (mutexInit T).workers[t]? = some w →
      w = ⟨0, Phase.test, 0⟩ := by
    intro t w h
    exact List.eq_of_mem_replicate (List.getElem?_mem h)
  refine ⟨?_, ?_, ?_, ?_, ?_, ?_⟩
  · simp [mutexInit]
  · simp [mutexInit, credit]
  · intro t w h
    rw [hmem t w h]
    simp [mutexInit]
  · intro t w h hr
    rw [hmem t w h] at hr
    exact absurd hr (by simp)
  · intro t w h
    rw [hmem t w h]
    exact ⟨Nat.zero_le N, fun hne => absurd rfl hne⟩
  · intro t h
    exact absurd h (by simp [mutexInit])

theorem mutexInit_remaining (T N : Nat) :
    ((mutexInit T).workers.map (remaining N)).sum = 4 * (T * N) := by
  simp [mutexInit, remaining, phaseIndex, List.map_replicate, List.sum_replicate]
  ring

theorem mutexRun_cons (N : Nat) (s : MutexState) (t : Nat) (sched : List Nat) :
    mutexRun N s (t :: sched) = (mutexStep N s t).bind (fun s1 => mutexRun N s1 sched) := by
  simp only [mutexRun, List.foldlM_cons]
  rfl

theorem mutexRun_inv {T N : Nat} (sched : List Nat) :
    ∀ (s s1 : MutexState), MutexInv T N s → mutexRun N s sched = some s1 →
      MutexInv T N s1
        ∧ (s1.workers.map (remaining N)).sum + sched.length
            = (s.workers.map (remaining N)).sum := by
  induction sched with
  | nil =>
    intro s s1 hinv hrun
    have h : s = s1 := Option.some.inj hrun
    subst h
    exact ⟨hinv, rfl⟩
  | cons t sched ih =>
    intro s s1 hinv hrun
    rw [mutexRun_cons] at hrun
    cases hstep : mutexStep N s t with
    | none => rw [hstep] at hrun; exact absurd hrun (by simp)
    | some s2 =>
      rw [hstep] at hrun
      obtain ⟨hinv2, hm2⟩ := mutexStep_inv hinv hstep
      obtain ⟨hinv1, hm1⟩ := ih s2 s1 hinv2 hrun
      refine ⟨hinv1, ?_⟩
      simp only [List.length_cons]
      omega

theorem mutex_counter_le {T N : Nat} {s : MutexState} (hinv : MutexInv T N s) :
    s.counter ≤ T * N := by
  have h : ∀ b ∈ s.workers.map credit, b ≤ N := by
    intro b hb
    obtain ⟨w, hw, rfl⟩ := List.mem_map.1 hb
    obtain ⟨t, ht⟩ := List.mem_iff_getElem?.1 hw
    obtain ⟨hi, hlt⟩ := hinv.range t w ht
    unfold credit
    split
    · rename_i hp
      have := hlt (by rw [hp]; simp)
      omega
    · omega
  have hs := sum_le_of_forall_le h
  rw [List.length_map, hinv.len] at hs
  rw [hinv.count, Nat.mul_comm]
  exact hs

theorem mutex_counter_of_done {T N : Nat} {s : MutexState} (hinv : MutexInv T N s)
    (hdone : mutexDone N s) : s.counter = T * N := by
  have h : ∀ b ∈ s.workers.map credit, N ≤ b := by
    intro b hb
    obtain ⟨w, hw, rfl⟩ := List.mem_map.1 hb
    have := (hdone w hw).2
    unfold credit
    omega
  have hs := sum_ge_of_forall_ge h
  rw [List.length_map, hinv.len] at hs
  have hle := mutex_counter_le hinv
  rw [hinv.count] at hle ⊢
  rw [Nat.mul_comm] at hs
  omega

theorem mutex_progress {T N : Nat} {s : MutexState} (hinv : MutexInv T N s)
    (hnot : ¬ mutexDone N s) : ∃ t s1, mutexStep N s t = some s1 := by
  cases hown : s.owner with
  | some t =>
    have htlt := hinv.own t hown
    have hw : s.workers[t]? = some s.workers[t] := List.getElem?_eq_getElem htlt
    have hne := (hinv.excl t _ hw).2 hown
    refine ⟨t, ?_⟩
    unfold mutexStep
    rw [hw]
    simp only
    cases hp : (s.workers[t]).phase with
    | test => exact absurd hp hne
    | hold => exact ⟨_, rfl⟩
    | read => exact ⟨_, rfl⟩
    | wrote => exact ⟨_, rfl⟩
  | none =>
    unfold mutexDone at hnot
    push_neg at hnot
    obtain ⟨w, hw, hcond⟩ := hnot
    obtain ⟨t, ht⟩ := List.mem_iff_getElem?.1 hw
    have hpt : w.phase = Phase.test := by
      by_contra hne
      have := (hinv.excl t w ht).1 hne
      rw [hown] at this
      exact absurd this (by simp)
    have hiN : w.i < N := by
      have := hcond hpt
      omega
    refine ⟨t, ?_⟩
    unfold mutexStep
    rw [ht]
    simp only [hpt, hiN, hown, and_self, if_true]
    exact ⟨_, rfl⟩

theorem mutex_completes {T N : Nat} (k : Nat) :
    ∀ s : MutexState, MutexInv T N s → (s.workers.map (remaining N)).sum = k →
      ∃ sched s1, mutexRun N s sched = some s1 ∧ mutexDone N s1 := by
  induction k with
  | zero =>
    intro s hinv hk
    by_cases hdone : mutexDone N s
    · exact ⟨[], s, rfl, hdone⟩
    · obtain ⟨t, s1, hstep⟩ := mutex_progress hinv hdone
      have := (mutexStep_inv hinv hstep).2
      omega
  | succ k ih =>
    intro s hinv hk
    by_cases hdone : mutexDone N s
    · exact ⟨[], s, rfl, hdone⟩
    · obtain ⟨t, s1, hstep⟩ := mutex_progress hinv hdone
      obtain ⟨hinv1, hm⟩ := mutexStep_inv hinv hstep
      obtain ⟨sched, s2, hrun, hd⟩ := ih s1 hinv1 (by omega)
      refine ⟨t :: sched, s2, ?_, hd⟩
      rw [mutexRun_cons, hstep]
      exact hrun

theorem atomicStep_inv {T N : Nat} {s s1 : AtomicState} {t : Nat} (hinv : AtomicInv T N s)
    (hstep : atomicStep N s t = some s1) :
    AtomicInv T N s1
      ∧ (s1.iters.map (fun i => N - i)).sum + 1 = (s.iters.map (fun i => N - i)).sum := by
  unfold atomicStep at hstep
  cases hw : s.iters[t]? with
  | none => rw [hw] at hstep; exact absurd hstep (by simp)
  | some i =>
    rw [hw] at hstep
    simp only at hstep
    split at hstep
    · rename_i hiN
      have hs1 := (Option.some.inj hstep).symm
      subst hs1
      have hcr := sum_map_set (fun j : Nat => j) (i + 1) hw
      have hrm := sum_map_set (fun j : Nat => N - j) (i + 1) hw
      simp only [List.map_id'] at hcr
      have hcount := hinv.count
      refine ⟨⟨?_, ?_, ?_⟩, ?_⟩
      · show (s.iters.set t _).length = T
        rw [List.length_set]; exact hinv.len
      · show s.counter + 1 = (s.iters.set t _).sum
        omega
      · intro j hj
        obtain ⟨u, hu⟩ := List.mem_iff_getElem?.1 hj
        rcases getElem?_set_cases hu with ⟨_, hv⟩ | ⟨_, hv⟩
        · omega
        · exact hinv.range j (List.getElem?_mem hv)
      · show ((s.iters.set t _).map (fun i => N - i)).sum + 1 = _
        simp only at hrm
        omega
    · exact absurd hstep (by simp)

theorem atomicInit_inv (T N : Nat) : AtomicInv T N (atomicInit T) := by
  refine ⟨?_, ?_, ?_⟩
  · simp [atomicInit]
  · simp [atomicInit]
  · intro i hi
    have : i = 0 := List.eq_of_mem_replicate hi
    omega

theorem atomicInit_remaining (T N : Nat) :
    ((atomicInit T).iters.map (fun i => N - i)).sum = T * N := by
  simp [atomicInit, List.map_replicate, List.sum_replicate]

theorem atomicRun_cons (N : Nat) (s : AtomicState) (t : Nat) (sched : List Nat) :
    atomicRun N s (t :: sched) = (atomicStep N s t).bind (fun s1 => atomicRun N s1 sched) := by
  simp only [atomicRun, List.foldlM_cons]
  rfl

theorem atomicRun_inv {T N : Nat} (sched : List Nat) :
    ∀ (s s1 : AtomicState), AtomicInv T N s → atomicRun N s sched = some s1 →
      AtomicInv T N s1
        ∧ (s1.iters.map (fun i => N - i)).sum + sched.length
            = (s.iters.map (fun i => N - i)).sum := by
  induction sched with
  | nil =>
    intro s s1 hinv hrun
    have h : s = s1 := Option.some.inj hrun
    subst h
    exact ⟨hinv, rfl⟩
  | cons t sched ih =>
    intro s s1 hinv hrun
    rw [atomicRun_cons] at hrun
    cases hstep : atomicStep N s t with
    | none => rw [hstep] at hrun; exact absurd hrun (by simp)
    | some s2 =>
      rw [hstep] at hrun
      obtain ⟨hinv2, hm2⟩ := atomicStep_inv hinv hstep
      obtain ⟨hinv1, hm1⟩ := ih s2 s1 hinv2 hrun
      refine ⟨hinv1, ?_⟩
      simp only [List.length_cons]
      omega

theorem atomic_counter_le {T N : Nat} {s : AtomicState} (hinv : AtomicInv T N s) :
    s.counter ≤ T * N := by
  have hs := sum_le_of_forall_le hinv.range
  rw [hinv.len] at hs
  rw [hinv.count, Nat.mul_comm]
  exact hs

theorem atomic_counter_of_done {T N : Nat} {s : AtomicState} (hinv : AtomicInv T N s)
    (hdone : atomicDone N s) : s.counter = T * N := by
  have hs := sum_ge_of_forall_ge hdone
  rw [hinv.len] at hs
  have hle := atomic_counter_le hinv
  rw [hinv.count] at hle ⊢
  rw [Nat.mul_comm] at hs
  omega

theorem atomic_progress {N : Nat} {s : AtomicState} (hnot : ¬ atomicDone N s) :
    ∃ t s1, atomicStep N s t = some s1 := by
  unfold atomicDone at hnot
  push_neg at hnot
  obtain ⟨i, hi, hiN⟩ := hnot
  obtain ⟨t, ht⟩ := List.mem_iff_getElem?.1 hi
  refine ⟨t, ?_⟩
  unfold atomicStep
  rw [ht]
  simp only [hiN, if_true]
  exact ⟨_, rfl⟩

theorem atomic_completes {T N : Nat} (k : Nat) :
    ∀ s : AtomicState, AtomicInv T N s → (s.iters.map (fun i => N - i)).sum = k →
      ∃ sched s1, atomicRun N s sched = some s1 ∧ atomicDone N s1 := by
  induction k with
  | zero =>
    intro s hinv hk
    by_cases hdone : atomicDone N s
    · exact ⟨[], s, rfl, hdone⟩
    · obtain ⟨t, s1, hstep⟩ := atomic_progress hdone
      have := (atomicStep_inv hinv hstep).2
      omega
  | succ k ih =>
    intro s hinv hk
    by_cases hdone : atomicDone N s
    · exact ⟨[], s, rfl, hdone⟩
    · obtain ⟨t, s1, hstep⟩ := atomic_progress hdone
      obtain ⟨hinv1, hm⟩ := atomicStep_inv hinv hstep
      obtain ⟨sched, s2, hrun, hd⟩ := ih s1 hinv1 (by omega)
      refine ⟨t :: sched, s2, ?_, hd⟩
      rw [atomicRun_cons, hstep]
      exact hrun

/-! ## Claims -/

/-- C1: for every grid and every `numThreads ≥ 1`, `ParallelBlur` has the same outcome as
`SequentialBlur`, whatever the height and the number of workers; on a grid whose rows all have
the same length both passes return, and they return the same grid (the same rows, the same
colour in every cell). -/
theorem ParallelBlur_eq_SequentialBlur (input : Image) (numThreads : Int)
    (hT : 1 ≤ numThreads) :
    ParallelBlur input numThreads = SequentialBlur input
      ∧ (Rect input → ∃ out, SequentialBlur input = some out
          ∧ ParallelBlur input numThreads = some out) := by
  have heq : ParallelBlur input numThreads = SequentialBlur input :=
    ParallelBlurWith_eq_SequentialBlurWith computeAverageColor input numThreads hT
  refine ⟨heq, fun hrect => ?_⟩
  obtain ⟨out, hout, _⟩ := SequentialBlur_rect hrect
  exact ⟨out, hout, heq.trans hout⟩

/-- Witness of C1: a 3-row grid and 2 workers (the height is not a multiple of the number of
workers), and the same grid with 5 workers (more workers than rows). -/
theorem ParallelBlur_eq_SequentialBlur_witness :
    (ParallelBlur (spotGrid 0 0) 2 = SequentialBlur (spotGrid 0 0)
      ∧ ∃ out, SequentialBlur (spotGrid 0 0) = some out ∧ ParallelBlur (spotGrid 0 0) 2 = some out)
    ∧ ParallelBlur (spotGrid 0 0) 5 = SequentialBlur (spotGrid 0 0) :=
  ⟨⟨(ParallelBlur_eq_SequentialBlur (spotGrid 0 0) 2 (by decide)).1,
      (ParallelBlur_eq_SequentialBlur (spotGrid 0 0) 2 (by decide)).2 (by decide)⟩,
    (ParallelBlur_eq_SequentialBlur (spotGrid 0 0) 5 (by decide)).1⟩

/-- C2: for every height `H ≥ 0` and every `T ≥ 1`, every row `y` with `0 ≤ y < H` lies in
the range `[startY, endY)` of exactly one worker `i` with `0 ≤ i < T`, and the range of a
worker contains no row outside `[0, H)`. -/
theorem strips_cover_rows (H T : Int) (hH : 0 ≤ H) (hT : 1 ≤ T) :
    (∀ y : Int, 0 ≤ y → y < H →
        ∃! i : Int, (0 ≤ i ∧ i < T) ∧ (strip H T i).1 ≤ y ∧ y < (strip H T i).2)
      ∧ (∀ i y : Int, 0 ≤ i → i < T → (strip H T i).1 ≤ y → y < (strip H T i).2 →
          0 ≤ y ∧ y < H) := by
  constructor
  · intro y hy0 hyH
    obtain ⟨i, hi, hi1, hi2⟩ := strip_exists hH hT hy0 hyH
    refine ⟨i, ⟨hi, hi1, hi2⟩, ?_⟩
    rintro j ⟨hj, hj1, hj2⟩
    rcases lt_trichotomy j i with hlt | heq | hgt
    · exact (strip_disjoint hH hT hlt hi.2 hj2 hi1).elim
    · exact heq
    · exact (strip_disjoint hH hT hgt hj.2 hi2 hj1).elim
  · intro i y hi0 hiT h1 h2
    have hs := stripHeight_nonneg hH hT
    have hstart : 0 ≤ (strip H T i).1 := by
      simp only [strip, stripStart]
      exact mul_nonneg hi0 hs
    have hend := strip_end_le hH hT hiT
    omega

/-- Witness of C2: height 10 and 4 workers, whose ranges are `[0,2)`, `[2,4)`, `[4,6)`,
`[6,10)`. -/
theorem strips_cover_rows_witness :
    ((∀ y : Int, 0 ≤ y → y < 10 →
        ∃! i : Int, (0 ≤ i ∧ i < 4) ∧ (strip 10 4 i).1 ≤ y ∧ y < (strip 10 4 i).2)
      ∧ (∀ i y : Int, 0 ≤ i → i < 4 → (strip 10 4 i).1 ≤ y → y < (strip 10 4 i).2 →
          0 ≤ y ∧ y < 10))
    ∧ [strip 10 4 0, strip 10 4 1, strip 10 4 2, strip 10 4 3] = [(0, 2), (2, 4), (4, 6), (6, 10)] :=
  ⟨strips_cover_rows 10 4 (by decide) (by decide), by decide⟩

/-- C3: on a grid whose rows all have the same length and at an in-range `(x, y)`,
`computeAverageColor` returns a colour whose every channel is the truncated quotient of the sum
of that channel over the in-bounds cells of the 3×3 neighbourhood of `(x, y)` by the number of
those cells, and that number is the number of positions of the neighbourhood that lie inside
the grid. -/
theorem computeAverageColor_is_neighbourhood_mean (img : Image) (x y : Int) (hrect : Rect img)
    (hx : 0 ≤ x ∧ x < width img) (hy : 0 ≤ y ∧ y < img.length) :
    ∃ c, computeAverageColor img x y = some c
      ∧ c.r.val = channelMean Color.r (neighbourhood img x y)
      ∧ c.g.val = channelMean Color.g (neighbourhood img x y)
      ∧ c.b.val = channelMean Color.b (neighbourhood img x y)
      ∧ neighbourCount img x y = some (neighbourhood img x y).length
      ∧ (neighbourhood img x y).length
          = ((window x y).filter (fun p => decide (inBounds img p))).length := by
  have hne : img ≠ [] := by
    intro h; rw [h] at hy; simp at hy; omega
  refine ⟨_, computeAverageColor_eq hrect hx hy, toU8_channelMean _ _, toU8_channelMean _ _,
    toU8_channelMean _ _, ?_, neighbourhood_length hrect x y⟩
  rw [neighbourCount_eq hrect hne, neighbourhood_length hrect]

/-- Witness of C3: the corner `(0, 0)` of the 3×3 grid whose only red cell is that corner. -/
theorem computeAverageColor_is_neighbourhood_mean_witness :
    ∃ c, computeAverageColor (spotGrid 0 0) 0 0 = some c
      ∧ c.r.val = channelMean Color.r (neighbourhood (spotGrid 0 0) 0 0)
      ∧ c.g.val = channelMean Color.g (neighbourhood (spotGrid 0 0) 0 0)
      ∧ c.b.val = channelMean Color.b (neighbourhood (spotGrid 0 0) 0 0)
      ∧ neighbourCount (spotGrid 0 0) 0 0 = some (neighbourhood (spotGrid 0 0) 0 0).length
      ∧ (neighbourhood (spotGrid 0 0) 0 0).length
          = ((window 0 0).filter (fun p => decide (inBounds (spotGrid 0 0) p))).length :=
  computeAverageColor_is_neighbourhood_mean (spotGrid 0 0) 0 0 (by decide) (by decide) (by decide)

/-- C4: `SequentialBlur` returns on every grid whose rows all have the same length, and
whenever it returns, the grid it returns has the same number of rows and the same length of
every row as the input, and its cell in column `x` of row `y` is the colour
`computeAverageColor(input, x, y)`. -/
theorem SequentialBlur_cells (input : Image) :
    (Rect input → ∃ out, SequentialBlur input = some out)
      ∧ ∀ out, SequentialBlur input = some out →
          out.map List.length = input.map List.length
          ∧ ∀ (x y : Nat) (row : List Color), input[y]? = some row → x < row.length →
              ∃ c, computeAverageColor input (x : Int) (y : Int) = some c
                ∧ cellAt out (x : Int) (y : Int) = some c := by
  refine ⟨fun hrect => ?_, fun out hrun => ?_⟩
  · obtain ⟨out, h1, _⟩ := SequentialBlur_rect hrect
    exact ⟨out, h1⟩
  · have hk := seqLoop_kernel_isSome computeAverageColor input input.length 0 input out hrun
    obtain ⟨out1, h1, h2, _, h4⟩ := seqLoop_spec computeAverageColor input input.length 0 input
      rfl (by omega) hk
    have heq : out1 = out := Option.some.inj (h1.symm.trans hrun)
    subst heq
    refine ⟨h2, ?_⟩
    intro x y row hrow hx
    have hy : y < input.length := (List.getElem?_eq_some.1 hrow).1
    obtain ⟨c, hc⟩ := Option.isSome_iff_exists.1 (hk y x row (by omega) (by omega) hrow hx)
    exact ⟨c, hc, by rw [h4 y x row (by omega) (by omega) hrow hx, hc]⟩

/-- Witness of C4: the 3×3 grid whose only red cell is the corner `(0, 0)`. -/
theorem SequentialBlur_cells_witness :
    ∃ out, SequentialBlur (spotGrid 0 0) = some out
      ∧ out.map List.length = (spotGrid 0 0).map List.length
      ∧ ∀ (x y : Nat) (row : List Color), (spotGrid 0 0)[y]? = some row → x < row.length →
          ∃ c, computeAverageColor (spotGrid 0 0) (x : Int) (y : Int) = some c
            ∧ cellAt out (x : Int) (y : Int) = some c :=
  match (SequentialBlur_cells (spotGrid 0 0)).1 (by decide) with
  | ⟨out, h⟩ => ⟨out, h, (SequentialBlur_cells (spotGrid 0 0)).2 out h⟩

/-- Counterexample to C5: with `numThreads = -1` on the 3×3 grid whose only red cell is the
corner `(0, 0)`, `ParallelBlur` neither fails nor returns what `SequentialBlur` returns: it
returns the input itself, whose corner is `(255, 0, 0)` where the blurred grid has
`(63, 0, 0)`. -/
theorem ParallelBlur_negative_threads_counterexample :
    ParallelBlur (spotGrid 0 0) (-1) = some (spotGrid 0 0)
      ∧ ParallelBlur (spotGrid 0 0) (-1) ≠ SequentialBlur (spotGrid 0 0)
      ∧ (ParallelBlur (spotGrid 0 0) (-1)).bind (fun out => cellAt out 0 0) = some ⟨255, 0, 0⟩
      ∧ (SequentialBlur (spotGrid 0 0)).bind (fun out => cellAt out 0 0) = some ⟨63, 0, 0⟩ := by
  decide

/-- C5 as amended: `ParallelBlur` does not check `numThreads`.  For every grid, with
`numThreads < 0` it starts no worker and returns the input grid unchanged, and with
`numThreads = 0` it returns no grid (`imgHeight / numThreads` divides by zero). -/
theorem ParallelBlur_nonpositive_threads (input : Image) (numThreads : Int)
    (hT : numThreads ≤ 0) :
    ParallelBlur input numThreads = if numThreads = 0 then none else some input := by
  unfold ParallelBlur ParallelBlurWith
  by_cases h0 : numThreads = 0
  · simp only [h0, if_true]
  · have hn : numThreads.toNat = 0 := by omega
    simp only [h0, if_false, hn, spawnLoop]

/-- Witness of C5 as amended: `numThreads = -1` and `numThreads = 0` on a 3×3 grid. -/
theorem ParallelBlur_nonpositive_threads_witness :
    ParallelBlur (spotGrid 0 0) (-1) = some (spotGrid 0 0)
      ∧ ParallelBlur (spotGrid 0 0) 0 = none :=
  ⟨ParallelBlur_nonpositive_threads (spotGrid 0 0) (-1) (by decide),
    ParallelBlur_nonpositive_threads (spotGrid 0 0) 0 (by decide)⟩

/-- Counterexample to C6: the only cell of a 1×1 grid is a corner cell and
`computeAverageColor` sums 1 cell there, not 4; the middle cell of a grid of one row and three
columns is a non-corner edge cell and `computeAverageColor` sums 3 cells there, not 6. -/
theorem neighbourCount_thin_grid_counterexample :
    (isCorner (uniformGrid 1 1 grey) 0 0 ∧ neighbourCount (uniformGrid 1 1 grey) 0 0 = some 1)
      ∧ (isEdge (uniformGrid 3 1 grey) 1 0
          ∧ neighbourCount (uniformGrid 3 1 grey) 1 0 = some 3) := by
  decide

/-- C6 as amended: on a grid whose rows all have the same length, with at least 2 columns and
at least 2 rows, the number of cells `computeAverageColor` sums at an in-range `(x, y)` is 4 at
a corner cell, 6 at a non-corner edge cell and 9 at an interior cell. -/
theorem neighbourCount_by_position (img : Image) (x y : Int) (hrect : Rect img)
    (hw : 2 ≤ width img) (hh : 2 ≤ img.length)
    (hx : 0 ≤ x ∧ x < width img) (hy : 0 ≤ y ∧ y < img.length) :
    (isCorner img x y → neighbourCount img x y = some 4)
      ∧ (isEdge img x y → neighbourCount img x y = some 6)
      ∧ (isInterior img x y → neighbourCount img x y = some 9) := by
  have hne : img ≠ [] := by
    intro h; rw [h] at hh; simp at hh
  have hw2 : (2 : Int) ≤ (width img : Int) := by omega
  have hh2 : (2 : Int) ≤ (img.length : Int) := by omega
  rw [neighbourCount_eq hrect hne, window_filter_length]
  refine ⟨?_, ?_, ?_⟩
  · rintro ⟨hbx, hby⟩
    rw [window_count_border hw2 hx hbx, window_count_border hh2 hy hby]
  · rintro (⟨hbx, hby⟩ | ⟨hbx, hby⟩)
    · rw [window_count_border hw2 hx hbx, window_count_inner hy hby]
    · rw [window_count_inner hx hbx, window_count_border hh2 hy hby]
  · rintro ⟨hbx, hby⟩
    rw [window_count_inner hx hbx, window_count_inner hy hby]

/-- Witness of C6 as amended: in a 3×3 grid the corner `(0, 0)` has 4 summed cells, the edge
cell `(1, 0)` has 6 and the centre `(1, 1)` has 9. -/
theorem neighbourCount_by_position_witness :
    neighbourCount (spotGrid 0 0) 0 0 = some 4
      ∧ neighbourCount (spotGrid 0 0) 1 0 = some 6
      ∧ neighbourCount (spotGrid 0 0) 1 1 = some 9 :=
  ⟨(neighbourCount_by_position (spotGrid 0 0) 0 0 (by decide) (by decide) (by decide)
      (by decide) (by decide)).1 (by decide),
    (neighbourCount_by_position (spotGrid 0 0) 1 0 (by decide) (by decide) (by decide)
      (by decide) (by decide)).2.1 (by decide),
    (neighbourCount_by_position (spotGrid 0 0) 1 1 (by decide) (by decide) (by decide)
      (by decide) (by decide)).2.2 (by decide)⟩

/-- C7: for each of the four corners `(cx, cy)` of the 3×3 grid, in the grid that is black
except for the red `(255, 0, 0)` cell at that corner, `computeAverageColor` returns
`(63, 0, 0)` at the corner and `(28, 0, 0)` at the centre `(1, 1)`, and the grid returned by
`SequentialBlur` has these two colours in these two cells. -/
theorem spotGrid_corner_blur :
    (computeAverageColor (spotGrid 0 0) 0 0 = some ⟨63, 0, 0⟩
        ∧ computeAverageColor (spotGrid 0 0) 1 1 = some ⟨28, 0, 0⟩
        ∧ (SequentialBlur (spotGrid 0 0)).bind (fun out => cellAt out 0 0) = some ⟨63, 0, 0⟩
        ∧ (SequentialBlur (spotGrid 0 0)).bind (fun out => cellAt out 1 1) = some ⟨28, 0, 0⟩)
      ∧ (computeAverageColor (spotGrid 2 0) 2 0 = some ⟨63, 0, 0⟩
        ∧ computeAverageColor (spotGrid 2 0) 1 1 = some ⟨28, 0, 0⟩
        ∧ (SequentialBlur (spotGrid 2 0)).bind (fun out => cellAt out 2 0) = some ⟨63, 0, 0⟩
        ∧ (SequentialBlur (spotGrid 2 0)).bind (fun out => cellAt out 1 1) = some ⟨28, 0, 0⟩)
      ∧ (computeAverageColor (spotGrid 0 2) 0 2 = some ⟨63, 0, 0⟩
        ∧ computeAverageColor (spotGrid 0 2) 1 1 = some ⟨28, 0, 0⟩
        ∧ (SequentialBlur (spotGrid 0 2)).bind (fun out => cellAt out 0 2) = some ⟨63, 0, 0⟩
        ∧ (SequentialBlur (spotGrid 0 2)).bind (fun out => cellAt out 1 1) = some ⟨28, 0, 0⟩)
      ∧ (computeAverageColor (spotGrid 2 2) 2 2 = some ⟨63, 0, 0⟩
        ∧ computeAverageColor (spotGrid 2 2) 1 1 = some ⟨28, 0, 0⟩
        ∧ (SequentialBlur (spotGrid 2 2)).bind (fun out => cellAt out 2 2) = some ⟨63, 0, 0⟩
        ∧ (SequentialBlur (spotGrid 2 2)).bind (fun out => cellAt out 1 1) = some ⟨28, 0, 0⟩) := by
  decide

/-- C8: on a grid whose rows all have the same length and whose cells all have the same
colour `c`, `computeAverageColor` returns `c` at every in-range cell and `SequentialBlur`
returns the input grid. -/
theorem uniform_fixed_point (img : Image) (c : Color) (hrect : Rect img)
    (hu : ∀ row ∈ img, ∀ p ∈ row, p = c) :
    (∀ x y : Nat, y < img.length → x < width img →
        computeAverageColor img (x : Int) (y : Int) = some c)
      ∧ SequentialBlur img = some img := by
  have hk : ∀ x y : Nat, y < img.length → x < width img →
      computeAverageColor img (x : Int) (y : Int) = some c :=
    fun x y hy hx => computeAverageColor_uniform hrect hu (by omega) (by omega)
  refine ⟨hk, ?_⟩
  obtain ⟨out, h1, h2, h3⟩ := SequentialBlur_rect hrect
  rw [h1]
  congr 1
  apply image_ext_of_cells h2
  intro y x row hrow hx
  have hy : y < img.length := (List.getElem?_eq_some.1 hrow).1
  have hw := hrect.row_length hrow
  rw [h3 x y hy (by omega), hk x y hy (by omega), cellAt_natCast, hrow]
  simp only [Option.some_bind]
  have hxr : row[x]? = some row[x] := List.getElem?_eq_getElem hx
  rw [hxr, hu row (List.getElem?_mem hrow) _ (List.getElem_mem hx)]

/-- Witness of C8: the 4×4 grid filled with `(100, 100, 100)`. -/
theorem uniform_fixed_point_witness :
    (∀ x y : Nat, y < (uniformGrid 4 4 grey).length → x < width (uniformGrid 4 4 grey) →
        computeAverageColor (uniformGrid 4 4 grey) (x : Int) (y : Int) = some ⟨100, 100, 100⟩)
      ∧ SequentialBlur (uniformGrid 4 4 grey) = some (uniformGrid 4 4 grey) :=
  uniform_fixed_point (uniformGrid 4 4 grey) ⟨100, 100, 100⟩ (by decide) (by decide)

/-- C9: on a grid with no row, and on a grid whose rows all have no column, `SequentialBlur`
and, for every `numThreads ≥ 1`, `ParallelBlur` return the input grid, which has no cell; they
do so whatever the per-pixel function is, even one that fails on every call, so the
per-pixel function is never called. -/
theorem blur_of_cell_free_grid (img : Image) (numThreads : Int)
    (hempty : img = [] ∨ ∀ row ∈ img, row = []) (hT : 1 ≤ numThreads) :
    (∀ kernel : Kernel, SequentialBlurWith kernel img = some img
        ∧ ParallelBlurWith kernel img numThreads = some img)
      ∧ SequentialBlur img = some img
      ∧ ParallelBlur img numThreads = some img
      ∧ ∀ x y : Int, cellAt img x y = none := by
  have hrows : ∀ row ∈ img, row = [] := by
    rcases hempty with h | h
    · rw [h]; intro row hrow; exact absurd hrow (List.not_mem_nil row)
    · exact h
  have hseq : ∀ kernel : Kernel, SequentialBlurWith kernel img = some img :=
    fun kernel => seqLoop_cell_free kernel img hrows img.length 0 img (by omega)
  have hpar : ∀ kernel : Kernel, ParallelBlurWith kernel img numThreads = some img :=
    fun kernel => (ParallelBlurWith_eq_SequentialBlurWith kernel img numThreads hT).trans
      (hseq kernel)
  exact ⟨fun kernel => ⟨hseq kernel, hpar kernel⟩, hseq computeAverageColor,
    hpar computeAverageColor, cellAt_cell_free hrows⟩

/-- Witness of C9: the grid with no row and the grid of three rows without columns, with
4 workers and a per-pixel function that fails on every call. -/
theorem blur_of_cell_free_grid_witness :
    (SequentialBlurWith (fun _ _ _ => none) [] = some []
        ∧ ParallelBlurWith (fun _ _ _ => none) [] 4 = some [])
      ∧ (SequentialBlurWith (fun _ _ _ => none) [[], [], []] = some [[], [], []]
        ∧ ParallelBlurWith (fun _ _ _ => none) [[], [], []] 4 = some [[], [], []])
      ∧ SequentialBlur [[], [], []] = some [[], [], []]
      ∧ ParallelBlur [[], [], []] 4 = some [[], [], []] :=
  ⟨(blur_of_cell_free_grid [] 4 (Or.inl rfl) (by decide)).1 (fun _ _ _ => none),
    (blur_of_cell_free_grid [[], [], []] 4 (Or.inr (by decide)) (by decide)).1
      (fun _ _ _ => none),
    (blur_of_cell_free_grid [[], [], []] 4 (Or.inr (by decide)) (by decide)).2.1,
    (blur_of_cell_free_grid [[], [], []] 4 (Or.inr (by decide)) (by decide)).2.2.1⟩

/-- C10: let `result` be an output grid of the shape of the input and
`0 ≤ startY ≤ endY ≤ height`.  `blurTask(startY, endY)` returns when the rows of the input all
have the same length, and whenever it returns: the output keeps its shape; every row outside
`[startY, endY)` is the row `result` had; every cell of a row inside the range is
`computeAverageColor(input, x, y)`; and the rows inside the range are the same whatever the
contents of the output grid were before. -/
theorem blurTask_frame (input result : Image) (startY endY : Int)
    (hshape : result.map List.length = input.map List.length)
    (h0 : 0 ≤ startY) (hse : startY ≤ endY) (heh : endY ≤ (input.length : Int)) :
    (Rect input → ∃ out, blurTask input result startY endY = some out)
      ∧ ∀ out, blurTask input result startY endY = some out →
          out.map List.length = result.map List.length
          ∧ (∀ y : Nat, ¬ (startY ≤ (y : Int) ∧ (y : Int) < endY) → out[y]? = result[y]?)
          ∧ (∀ (x y : Nat) (row : List Color), startY ≤ (y : Int) → (y : Int) < endY →
              input[y]? = some row → x < row.length →
              ∃ c, computeAverageColor input (x : Int) (y : Int) = some c
                ∧ cellAt out (x : Int) (y : Int) = some c)
          ∧ (∀ other : Image, other.map List.length = input.map List.length →
              ∃ out2, blurTask input other startY endY = some out2
                ∧ ∀ y : Nat, startY ≤ (y : Int) → (y : Int) < endY → out2[y]? = out[y]?) := by
  obtain ⟨a, rfl⟩ : ∃ a : Nat, startY = (a : Int) := ⟨startY.toNat, by omega⟩
  obtain ⟨n, rfl⟩ : ∃ n : Nat, endY = ((a + n : Nat) : Int) :=
    ⟨(endY - (a : Int)).toNat, by omega⟩
  have hle : a + n ≤ input.length := by omega
  have hrun : ∀ r : Image, blurTask input r (a : Int) ((a + n : Nat) : Int)
      = seqLoop computeAverageColor input n a r :=
    fun r => blurTaskWith_eq_seqLoop computeAverageColor input r a n
  refine ⟨fun hrect => ?_, fun out hout => ?_⟩
  · obtain ⟨out, g1, _⟩ := seqLoop_spec computeAverageColor input n a result hshape hle
      (fun y x row _ _ hrow hx => computeAverageColor_isSome hrect hrow hx)
    exact ⟨out, (hrun result).trans g1⟩
  · have hk := seqLoop_kernel_isSome computeAverageColor input n a result out
      ((hrun result).symm.trans hout)
    obtain ⟨out1, g1, g2, g3, g4⟩ :=
      seqLoop_spec computeAverageColor input n a result hshape hle hk
    have heq : out1 = out := Option.some.inj (g1.symm.trans ((hrun result).symm.trans hout))
    subst heq
    refine ⟨g2.trans hshape.symm, ?_, ?_, ?_⟩
    · intro y hy
      exact g3 y (by omega)
    · intro x y row hy1 hy2 hrow hx
      obtain ⟨c, hc⟩ := Option.isSome_iff_exists.1 (hk y x row (by omega) (by omega) hrow hx)
      exact ⟨c, hc, by rw [g4 y x row (by omega) (by omega) hrow hx, hc]⟩
    · intro other hother
      obtain ⟨out2, k1, k2, _, k4⟩ :=
        seqLoop_spec computeAverageColor input n a other hother hle hk
      refine ⟨out2, (hrun other).trans k1, ?_⟩
      intro y hy1 hy2
      have hyl : y < input.length := by omega
      have hrow : input[y]? = some input[y] := List.getElem?_eq_getElem hyl
      apply rows_eq_of_cells k2 g2 hrow
      intro x hx
      rw [k4 y x _ (by omega) (by omega) hrow hx, g4 y x _ (by omega) (by omega) hrow hx]

/-- Witness of C10: the worker for rows `[1, 2)` of a 3×3 grid, writing into the grey 3×3
grid: it returns, leaves rows 0 and 2 grey and writes the blurred row 1. -/
theorem blurTask_frame_witness :
    blurTask (spotGrid 0 0) (uniformGrid 3 3 grey) 1 2
        = some [[grey, grey, grey], [⟨42, 0, 0⟩, ⟨28, 0, 0⟩, black], [grey, grey, grey]]
      ∧ ((Rect (spotGrid 0 0) →
            ∃ out, blurTask (spotGrid 0 0) (uniformGrid 3 3 grey) 1 2 = some out)
          ∧ ∀ out, blurTask (spotGrid 0 0) (uniformGrid 3 3 grey) 1 2 = some out →
              out.map List.length = (uniformGrid 3 3 grey).map List.length
              ∧ (∀ y : Nat, ¬ ((1 : Int) ≤ (y : Int) ∧ (y : Int) < 2) →
                  out[y]? = (uniformGrid 3 3 grey)[y]?)
              ∧ (∀ (x y : Nat) (row : List Color), (1 : Int) ≤ (y : Int) → (y : Int) < 2 →
                  (spotGrid 0 0)[y]? = some row → x < row.length →
                  ∃ c, computeAverageColor (spotGrid 0 0) (x : Int) (y : Int) = some c
                    ∧ cellAt out (x : Int) (y : Int) = some c)
              ∧ (∀ other : Image, other.map List.length = (spotGrid 0 0).map List.length →
                  ∃ out2, blurTask (spotGrid 0 0) other 1 2 = some out2
                    ∧ ∀ y : Nat, (1 : Int) ≤ (y : Int) → (y : Int) < 2 →
                        out2[y]? = out[y]?)) :=
  ⟨by decide,
    blurTask_frame (spotGrid 0 0) (uniformGrid 3 3 grey) 1 2 (by decide) (by decide) (by decide)
      (by decide)⟩

/-- C11: on a grid whose rows all have the same length and at an in-range `(x, y)`,
`computeAverageColor` meets no error: the centre cell is in the grid and is summed, so the
divisor `count` is at least 1 and the division is defined; every iteration of its loops
returns, and an iteration that reads `img[ny][nx]` reads a position inside the grid. -/
theorem computeAverageColor_safe (img : Image) (x y : Int) (hrect : Rect img)
    (hx : 0 ≤ x ∧ x < width img) (hy : 0 ≤ y ∧ y < img.length) :
    (∃ c, cellAt img x y = some c ∧ ∀ acc, visit img x y 0 0 acc = some (acc.add (some c)))
      ∧ (∃ n, neighbourCount img x y = some n ∧ 1 ≤ n)
      ∧ (∃ c, computeAverageColor img x y = some c)
      ∧ ∀ (dy dx : Int) (acc : Acc),
          visit img x y dy dx acc = some acc
            ∨ (inBounds img (x + dx, y + dy)
                ∧ ∃ c, cellAt img (x + dx) (y + dy) = some c
                  ∧ visit img x y dy dx acc = some (acc.add (some c))) := by
  have hne : img ≠ [] := by
    intro h; rw [h] at hy; simp at hy; omega
  have hcentre : (cellAt img x y).isSome := (cellAt_isSome_iff hrect x y).2 ⟨hx, hy⟩
  obtain ⟨c0, hc0⟩ := Option.isSome_iff_exists.1 hcentre
  refine ⟨⟨c0, hc0, fun acc => ?_⟩, ⟨(neighbourhood img x y).length, ?_, ?_⟩,
    ⟨_, computeAverageColor_eq hrect hx hy⟩, ?_⟩
  · have h := visit_eq_add hrect hne x y 0 0 acc
    simpa [hc0] using h
  · rw [neighbourCount_eq hrect hne, ← neighbourhood_length hrect]
  · exact neighbourhood_length_pos hrect hx hy
  · intro dy dx acc
    have h := visit_eq_add hrect hne x y dy dx acc
    cases hc : cellAt img (x + dx) (y + dy) with
    | none => left; rw [h, hc]; rfl
    | some c =>
      right
      refine ⟨?_, c, rfl, by rw [h, hc]⟩
      exact (cellAt_isSome_iff hrect (x + dx) (y + dy)).1 (by rw [hc]; rfl)

/-- Witness of C11: the corner `(2, 2)` of a 3×3 grid. -/
theorem computeAverageColor_safe_witness :
    (∃ c, cellAt (spotGrid 0 0) 2 2 = some c
        ∧ ∀ acc, visit (spotGrid 0 0) 2 2 0 0 acc = some (acc.add (some c)))
      ∧ (∃ n, neighbourCount (spotGrid 0 0) 2 2 = some n ∧ 1 ≤ n)
      ∧ (∃ c, computeAverageColor (spotGrid 0 0) 2 2 = some c)
      ∧ ∀ (dy dx : Int) (acc : Acc),
          visit (spotGrid 0 0) 2 2 dy dx acc = some acc
            ∨ (inBounds (spotGrid 0 0) (2 + dx, 2 + dy)
                ∧ ∃ c, cellAt (spotGrid 0 0) (2 + dx) (2 + dy) = some c
                  ∧ visit (spotGrid 0 0) 2 2 dy dx acc = some (acc.add (some c))) :=
  computeAverageColor_safe (spotGrid 0 0) 2 2 (by decide) (by decide) (by decide)

/-- C12: a worker whose range has `endY ≤ startY` writes nothing and returns the output grid
as it was, whatever the per-pixel function is; and when `numThreads` exceeds the height, every
worker but the last has such a range (the range `[0, 0)`). -/
theorem blurTask_empty_range (kernel : Kernel) (input result : Image) :
    (∀ startY endY : Int, endY ≤ startY →
        blurTaskWith kernel input result startY endY = some result)
      ∧ ∀ numThreads i : Int, (input.length : Int) < numThreads → 0 ≤ i → i < numThreads - 1 →
          strip input.length numThreads i = (0, 0)
            ∧ blurTaskWith kernel input result (strip input.length numThreads i).1
                (strip input.length numThreads i).2 = some result := by
  refine ⟨fun startY endY h => blurTaskWith_of_le kernel input result h, ?_⟩
  intro numThreads i hlt _ hi
  have hs := strip_of_lt (Int.natCast_nonneg input.length) hlt hi
  refine ⟨hs, ?_⟩
  rw [hs]
  exact blurTaskWith_of_le kernel input result (le_refl 0)

/-- Witness of C12: the range `[2, 1)` on a 3×3 grid, and worker 1 of 5 on the same grid, with
a per-pixel function that fails on every call. -/
theorem blurTask_empty_range_witness :
    blurTaskWith (fun _ _ _ => none) (spotGrid 0 0) (spotGrid 0 0) 2 1 = some (spotGrid 0 0)
      ∧ strip (spotGrid 0 0).length 5 1 = (0, 0)
      ∧ blurTaskWith (fun _ _ _ => none) (spotGrid 0 0) (spotGrid 0 0)
          (strip (spotGrid 0 0).length 5 1).1 (strip (spotGrid 0 0).length 5 1).2
          = some (spotGrid 0 0) :=
  ⟨(blurTask_empty_range (fun _ _ _ => none) (spotGrid 0 0) (spotGrid 0 0)).1 2 1 (by decide),
    (blurTask_empty_range (fun _ _ _ => none) (spotGrid 0 0) (spotGrid 0 0)).2 5 1 (by decide)
      (by decide) (by decide)⟩

/-- C13: for every number of workers `T` (in particular `T ≥ 1`) and every number of
iterations `N`, in the mutex trial and in the atomic trial alike: along every interleaving
of the workers' actions the counter, started at 0, never exceeds `T * N`; an interleaving has
at most `4 * (T * N)` actions in the mutex trial and `T * N` in the atomic trial; as long as
some worker has not left its loop some worker can act; and once every worker has left its
loop the counter is exactly `T * N`.  Such a complete interleaving exists. -/
theorem counter_convergence (T N : Nat) :
    ((∀ (sched : List Nat) (s : MutexState), mutexRun N (mutexInit T) sched = some s →
          s.counter ≤ T * N ∧ sched.length ≤ 4 * (T * N)
            ∧ (mutexDone N s → s.counter = T * N)
            ∧ (¬ mutexDone N s → ∃ t s1, mutexStep N s t = some s1))
        ∧ ∃ sched s, mutexRun N (mutexInit T) sched = some s ∧ mutexDone N s)
      ∧ ((∀ (sched : List Nat) (s : AtomicState), atomicRun N (atomicInit T) sched = some s →
          s.counter ≤ T * N ∧ sched.length ≤ T * N
            ∧ (atomicDone N s → s.counter = T * N)
            ∧ (¬ atomicDone N s → ∃ t s1, atomicStep N s t = some s1))
        ∧ ∃ sched s, atomicRun N (atomicInit T) sched = some s ∧ atomicDone N s) := by
  refine ⟨⟨?_, ?_⟩, ⟨?_, ?_⟩⟩
  · intro sched s hrun
    obtain ⟨hinv, hm⟩ := mutexRun_inv sched (mutexInit T) s (mutexInit_inv T N) hrun
    rw [mutexInit_remaining] at hm
    exact ⟨mutex_counter_le hinv, by omega, mutex_counter_of_done hinv, mutex_progress hinv⟩
  · exact mutex_completes _ (mutexInit T) (mutexInit_inv T N) rfl
  · intro sched s hrun
    obtain ⟨hinv, hm⟩ := atomicRun_inv sched (atomicInit T) s (atomicInit_inv T N) hrun
    rw [atomicInit_remaining] at hm
    exact ⟨atomic_counter_le hinv, by omega, atomic_counter_of_done hinv,
      fun hnot => atomic_progress hnot⟩
  · exact atomic_completes _ (atomicInit T) (atomicInit_inv T N) rfl

/-- Witness of C13: two workers and two iterations.  In the mutex trial the workers take the
mutex in the order 0, 1, 1, 0; in the atomic trial they increment in the order 0, 1, 1, 0.
Both end with the counter at 4. -/
theorem counter_convergence_witness :
    (mutexRun 2 (mutexInit 2) [0, 0, 0, 0, 1, 1, 1, 1, 1, 1, 1, 1, 0, 0, 0, 0]
          = some ⟨4, none, [⟨2, Phase.test, 3⟩, ⟨2, Phase.test, 2⟩]⟩
        ∧ (⟨4, none, [⟨2, Phase.test, 3⟩, ⟨2, Phase.test, 2⟩]⟩ : MutexState).counter = 2 * 2)
      ∧ (atomicRun 2 (atomicInit 2) [0, 1, 1, 0] = some ⟨4, [2, 2]⟩
        ∧ (⟨4, [2, 2]⟩ : AtomicState).counter = 2 * 2)
      ∧ mutexRun 2 (mutexInit 2) [0, 1] = none :=
  ⟨⟨by decide,
      ((counter_convergence 2 2).1.1 [0, 0, 0, 0, 1, 1, 1, 1, 1, 1, 1, 1, 0, 0, 0, 0]
        ⟨4, none, [⟨2, Phase.test, 3⟩, ⟨2, Phase.test, 2⟩]⟩ (by decide)).2.2.1 (by decide)⟩,
    ⟨by decide,
      ((counter_convergence 2 2).2.1 [0, 1, 1, 0] ⟨4, [2, 2]⟩ (by decide)).2.2.1 (by decide)⟩,
    by decide⟩

/-- C14: for every grid and every `numThreads ≥ 1`, running the workers of `ParallelBlur` one
after the other in any order that is a permutation of the worker indices `0, …, numThreads - 1`
has the outcome of `ParallelBlur`, which runs them in the order of their indices; on a grid
whose rows all have the same length every such order returns the grid that `SequentialBlur`
returns. -/
theorem ParallelBlur_order_independent (input : Image) (numThreads : Int)
    (hT : 1 ≤ numThreads) (order : List Nat)
    (hperm : order.Perm (List.range numThreads.toNat)) :
    runWorkers input numThreads order = ParallelBlur input numThreads
      ∧ ParallelBlur input numThreads
          = runWorkers input numThreads (List.range numThreads.toNat)
      ∧ (Rect input → ∃ out, runWorkers input numThreads order = some out
          ∧ SequentialBlur input = some out) := by
  have hrun : runWorkers input numThreads order = SequentialBlur input :=
    runWorkersWith_eq_SequentialBlurWith computeAverageColor input hT hperm
  have hpar : ParallelBlur input numThreads = SequentialBlur input :=
    ParallelBlurWith_eq_SequentialBlurWith computeAverageColor input numThreads hT
  refine ⟨hrun.trans hpar.symm, ?_, fun hrect => ?_⟩
  · exact ParallelBlurWith_eq_runWorkersWith computeAverageColor input numThreads (by omega)
  · obtain ⟨out, hout, _⟩ := SequentialBlur_rect hrect
    exact ⟨out, hrun.trans hout, hout⟩

/-- Witness of C14: three workers on a 3×3 grid, run in the order 2, 0, 1. -/
theorem ParallelBlur_order_independent_witness :
    runWorkers (spotGrid 0 0) 3 [2, 0, 1] = ParallelBlur (spotGrid 0 0) 3
      ∧ ParallelBlur (spotGrid 0 0) 3 = runWorkers (spotGrid 0 0) 3 (List.range (3 : Int).toNat)
      ∧ ∃ out, runWorkers (spotGrid 0 0) 3 [2, 0, 1] = some out
          ∧ SequentialBlur (spotGrid 0 0) = some out :=
  ⟨(ParallelBlur_order_independent (spotGrid 0 0) 3 (by decide) [2, 0, 1] (by decide)).1,
    (ParallelBlur_order_independent (spotGrid 0 0) 3 (by decide) [2, 0, 1] (by decide)).2.1,
    (ParallelBlur_order_independent (spotGrid 0 0) 3 (by decide) [2, 0, 1] (by decide)).2.2
      (by decide)⟩

/-- C15: on a grid whose rows all have the same length and at an in-range `(x, y)`, each
channel of the colour returned by `computeAverageColor` lies between the least and the greatest
value of that channel over the in-bounds cells of the 3×3 neighbourhood; the three sums never
exceed `9 * 255`, the three quotients are at most 255, and each returned channel is its
quotient, so the cast to `uint8_t` does not wrap. -/
theorem computeAverageColor_bounds (img : Image) (x y : Int) (hrect : Rect img)
    (hx : 0 ≤ x ∧ x < width img) (hy : 0 ≤ y ∧ y < img.length) :
    ∃ c acc, computeAverageColor img x y = some c ∧ accumulate img x y = some acc
      ∧ (BetweenMinMax ((neighbourhood img x y).map (fun p => p.r.val)) c.r.val
        ∧ BetweenMinMax ((neighbourhood img x y).map (fun p => p.g.val)) c.g.val
        ∧ BetweenMinMax ((neighbourhood img x y).map (fun p => p.b.val)) c.b.val)
      ∧ (acc.sumR ≤ 9 * 255 ∧ acc.sumG ≤ 9 * 255 ∧ acc.sumB ≤ 9 * 255)
      ∧ (acc.sumR / acc.count ≤ 255 ∧ acc.sumG / acc.count ≤ 255
        ∧ acc.sumB / acc.count ≤ 255)
      ∧ (c.r.val = acc.sumR / acc.count ∧ c.g.val = acc.sumG / acc.count
        ∧ c.b.val = acc.sumB / acc.count) := by
  have hne : img ≠ [] := by
    intro h; rw [h] at hy; simp at hy; omega
  obtain ⟨acc, hacc, hr, hg, hb, hc⟩ := accumulate_spec hrect hne x y
  have hpos := neighbourhood_length_pos hrect hx hy
  have hlen := neighbourhood_length_le img x y
  have hmr : acc.sumR / acc.count = channelMean Color.r (neighbourhood img x y) := by
    rw [hr, hc]; rfl
  have hmg : acc.sumG / acc.count = channelMean Color.g (neighbourhood img x y) := by
    rw [hg, hc]; rfl
  have hmb : acc.sumB / acc.count = channelMean Color.b (neighbourhood img x y) := by
    rw [hb, hc]; rfl
  have hsr := channel_sum_le Color.r (neighbourhood img x y)
  have hsg := channel_sum_le Color.g (neighbourhood img x y)
  have hsb := channel_sum_le Color.b (neighbourhood img x y)
  have hqr := channelMean_lt Color.r (neighbourhood img x y)
  have hqg := channelMean_lt Color.g (neighbourhood img x y)
  have hqb := channelMean_lt Color.b (neighbourhood img x y)
  refine ⟨_, acc, computeAverageColor_eq hrect hx hy, hacc, ⟨?_, ?_, ?_⟩, ⟨?_, ?_, ?_⟩,
    ⟨?_, ?_, ?_⟩, ⟨?_, ?_, ?_⟩⟩
  · rw [toU8_channelMean]; exact channelMean_between Color.r _ hpos
  · rw [toU8_channelMean]; exact channelMean_between Color.g _ hpos
  · rw [toU8_channelMean]; exact channelMean_between Color.b _ hpos
  · rw [hr]; omega
  · rw [hg]; omega
  · rw [hb]; omega
  · rw [hmr]; omega
  · rw [hmg]; omega
  · rw [hmb]; omega
  · rw [hmr]; exact toU8_channelMean _ _
  · rw [hmg]; exact toU8_channelMean _ _
  · rw [hmb]; exact toU8_channelMean _ _

/-- Witness of C15: the centre `(1, 1)` of the 3×3 grid whose only red cell is the corner
`(0, 0)`. -/
theorem computeAverageColor_bounds_witness :
    ∃ c acc, computeAverageColor (spotGrid 0 0) 1 1 = some c
      ∧ accumulate (spotGrid 0 0) 1 1 = some acc
      ∧ (BetweenMinMax ((neighbourhood (spotGrid 0 0) 1 1).map (fun p => p.r.val)) c.r.val
        ∧ BetweenMinMax ((neighbourhood (spotGrid 0 0) 1 1).map (fun p => p.g.val)) c.g.val
        ∧ BetweenMinMax ((neighbourhood (spotGrid 0 0) 1 1).map (fun p => p.b.val)) c.b.val)
      ∧ (acc.sumR ≤ 9 * 255 ∧ acc.sumG ≤ 9 * 255 ∧ acc.sumB ≤ 9 * 255)
      ∧ (acc.sumR / acc.count ≤ 255 ∧ acc.sumG / acc.count ≤ 255
        ∧ acc.sumB / acc.count ≤ 255)
      ∧ (c.r.val = acc.sumR / acc.count ∧ c.g.val = acc.sumG / acc.count
        ∧ c.b.val = acc.sumB / acc.count) :=
  computeAverageColor_bounds (spotGrid 0 0) 1 1 (by decide) (by decide) (by decide)

/-- C16: for every height `H ≥ 0` and every `T ≥ 1`, each worker `i` with `0 ≤ i < T - 1` is
given exactly `H / T` rows and worker `T - 1` is given exactly `H / T + H % T` rows; when
`T > H` the workers before the last are given the range `[0, 0)` and the last one the range
`[0, H)`. -/
theorem strip_sizes (H T : Int) (hH : 0 ≤ H) (hT : 1 ≤ T) :
    (∀ i : Int, 0 ≤ i → i < T - 1 → (strip H T i).2 - (strip H T i).1 = H / T)
      ∧ (strip H T (T - 1)).2 - (strip H T (T - 1)).1 = H / T + H % T
      ∧ (H < T → (∀ i : Int, 0 ≤ i → i < T - 1 → strip H T i = (0, 0))
          ∧ strip H T (T - 1) = (0, H)) := by
  have hdiv : H.tdiv T = H / T := Int.tdiv_eq_ediv hH (by omega)
  refine ⟨?_, ?_, ?_⟩
  · intro i _ hi
    have hne : ¬ (i = T - 1) := by omega
    simp only [strip, stripStart, stripEnd, hne, if_false, hdiv]
    ring
  · simp only [strip, stripStart, stripEnd, if_true, hdiv]
    have h := Int.ediv_add_emod H T
    linarith
  · intro hlt
    exact ⟨fun i _ hi => strip_of_lt hH hlt hi, strip_last_of_lt hH hlt⟩

/-- Witness of C16: height 10 with 4 workers (2, 2, 2 and 2 + 2 rows) and height 3 with
5 workers. -/
theorem strip_sizes_witness :
    ((∀ i : Int, 0 ≤ i → i < 4 - 1 → (strip 10 4 i).2 - (strip 10 4 i).1 = 10 / 4)
      ∧ (strip 10 4 (4 - 1)).2 - (strip 10 4 (4 - 1)).1 = 10 / 4 + 10 % 4
      ∧ ((10 : Int) < 4 → (∀ i : Int, 0 ≤ i → i < 4 - 1 → strip 10 4 i = (0, 0))
          ∧ strip 10 4 (4 - 1) = (0, 10)))
    ∧ ((∀ i : Int, 0 ≤ i → i < 5 - 1 → strip 3 5 i = (0, 0)) ∧ strip 3 5 (5 - 1) = (0, 3)) :=
  ⟨strip_sizes 10 4 (by decide) (by decide),
    (strip_sizes 3 5 (by decide) (by decide)).2.2 (by decide)⟩

/-- C17: `SequentialBlur` is not idempotent: on the 3×3 black grid whose corner `(0, 0)` is
`(255, 0, 0)`, blurring the blurred grid gives a grid other than the blurred grid (its corner
is `(43, 0, 0)`, not `(63, 0, 0)`). -/
theorem SequentialBlur_not_idempotent :
    (SequentialBlur (spotGrid 0 0)).bind SequentialBlur ≠ SequentialBlur (spotGrid 0 0)
      ∧ (SequentialBlur (spotGrid 0 0)).bind (fun out => cellAt out 0 0) = some ⟨63, 0, 0⟩
      ∧ ((SequentialBlur (spotGrid 0 0)).bind SequentialBlur).bind (fun out => cellAt out 0 0)
          = some ⟨43, 0, 0⟩ := by
  decide

end Laba5
